import Mathlib

/-!
Verification of the Ripple Effect puzzle solver (`Ripple.py`,
`BruteForce_Solver.py`, `Intelligent_Solver_Heuristic.py`).

This file is a shallow embedding of the puzzle state and the two
backtracking solvers.  Python values are modelled as follows:

* a grid cell holds either the string sentinel `"."` or an `int`;
  we model it as `Option Nat` (`none` is the empty sentinel);
* `empty_slots_left` is a Python integer and is modelled as `Int`;
* Python dictionaries are modelled as association lists whose lookup
  returns the first matching key (the programs never create duplicate
  keys for the dictionaries modelled that way);
* Python `set` objects holding small integers are modelled as `Finset Nat`;
  where Python iterates over such a set in an unspecified hash order the
  embedding iterates in increasing order (a doc comment marks each spot);
* list indexing `xs[i]` raises `IndexError` when out of bounds; inside the
  solver loops, where the claims are about in-bounds behaviour, the
  embedding uses `List.getD`, and theorems carry in-bounds hypotheses;
  the one access whose bounds behaviour a claim is about
  (`puzzle[row][col]` at the top of the brute-force `solve_rec`) is
  modelled with `List.get?` so that the out-of-bounds case is explicit.
-/

/-- A grid cell: `none` models the Python empty sentinel `"."`,
`some v` a placed integer value `v`. -/
abbrev Cell := Option Nat

/-- A square, i.e. a cell coordinate `(row, col)`. -/
abbrev Sq := Nat × Nat

/-- Embeds the state of the `Puzzle` object of `Ripple.py`.  The
`puzzle_str` field of the source only feeds `__str__` pretty-printing and
carries no solver-relevant state, so it is omitted. -/
structure Puzzle where
  width : Nat
  height : Nat
  puzzle : List (List Cell)
  regions : List (List Sq)
  region_map : List (Sq × List Sq)
  solved : Bool
  empty_slots_left : Int
deriving DecidableEq

/-- The counting loop of `Puzzle.__init__`: `for row in puzzle: for elem in
row: if elem == ".": self.empty_slots_left += 1`. -/
def initEmptyCount (grid : List (List Cell)) : Int :=
  grid.foldl (fun acc row => row.foldl (fun a e => if e = none then a + 1 else a) acc) 0

/-- Embeds `Puzzle.__init__(width, height, puzzle, puzzle_str, regions,
region_map)`: `solved` starts `False` and `empty_slots_left` is the number
of `"."` cells of the grid. -/
def mkPuzzle (width height : Nat) (grid : List (List Cell))
    (regions : List (List Sq)) (rm : List (Sq × List Sq)) : Puzzle :=
  ⟨width, height, grid, regions, rm, false, initEmptyCount grid⟩

/-- Read the grid cell at `(row, col)`, defaulting out-of-bounds access to
the empty sentinel (the Python code only reads in bounds at the places this
helper models; theorems about those places carry in-bounds hypotheses). -/
def cellD (p : Puzzle) (row col : Nat) : Cell :=
  (p.puzzle.getD row []).getD col none

/-- Embeds `Puzzle.get(square)`: `self.puzzle[square[0]][square[1]]`. -/
def Puzzle.get (p : Puzzle) (s : Sq) : Cell := cellD p s.1 s.2

/-- First-match association-list lookup, modelling a Python dict read
(`read_puzzle` assigns each square key exactly once, so first match equals
the dict's last-write-wins semantics). -/
def lookupSq (s : Sq) : List (Sq × List Sq) → Option (List Sq)
  | [] => none
  | e :: rest => if e.1 = s then some e.2 else lookupSq s rest

/-- Embeds `Puzzle.get_region(square)`: the region of the square, or
`None` if the square is not in `region_map`. -/
def Puzzle.get_region (p : Puzzle) (s : Sq) : Option (List Sq) :=
  lookupSq s p.region_map

/-- Write the grid cell at `(row, col)` (`self.puzzle[row][col] = v`);
out-of-bounds writes are no-ops in the model (the source only writes in
bounds at the modelled call sites). -/
def setCell (p : Puzzle) (row col : Nat) (v : Cell) : Puzzle :=
  {p with puzzle := p.puzzle.set row ((p.puzzle.getD row []).set col v)}

/-- The number of empty cells of one row (specification-side count used to
state the `empty_slots_left` invariant). -/
def countNoneRow : List Cell → Nat
  | [] => 0
  | c :: rest => (if c = none then 1 else 0) + countNoneRow rest

/-- The number of empty cells of a grid (specification-side count used to
state the `empty_slots_left` invariant). -/
def countEmpty : List (List Cell) → Nat
  | [] => 0
  | row :: rest => countNoneRow row + countEmpty rest

/-- The `prev` dictionary of `Puzzle.is_valid`, mapping a value to the list
of earlier positions where it occurred: lookup. -/
def lookupPrev (v : Nat) : List (Nat × List Nat) → Option (List Nat)
  | [] => none
  | e :: rest => if e.1 = v then some e.2 else lookupPrev v rest

/-- The `prev` dictionary of `Puzzle.is_valid`: write `prev[v] = l`. -/
def updatePrev (v : Nat) (l : List Nat) : List (Nat × List Nat) → List (Nat × List Nat)
  | [] => [(v, l)]
  | e :: rest => if e.1 = v then (v, l) :: rest else e :: updatePrev v l rest

/-- The row/column scanning loop of `Puzzle.is_valid`: walk the line at
increasing positions `k`; for a placed value `v`, if `v` was seen before,
return `False` as soon as some earlier position `i` has `k - i <= v`,
otherwise append `k` to `prev[v]`. -/
def lineScan : List Cell → Nat → List (Nat × List Nat) → Bool
  | [], _, _ => true
  | c :: rest, k, prev =>
    match c with
    | none => lineScan rest (k + 1) prev
    | some v =>
      match lookupPrev v prev with
      | none => lineScan rest (k + 1) (updatePrev v [k] prev)
      | some idxs =>
        if idxs.any (fun i => k - i ≤ v) then false
        else lineScan rest (k + 1) (updatePrev v (idxs ++ [k]) prev)

/-- One line (row or column) check of `Puzzle.is_valid`, starting from
position `0` with an empty `prev` dictionary. -/
def lineOK (line : List Cell) : Bool := lineScan line 0 []

/-- The column at index `col`: the values `self.puzzle[p_row][col]` for
`p_row in range(len(self.puzzle))`. -/
def colCells (p : Puzzle) (col : Nat) : List Cell :=
  p.puzzle.map (fun row => row.getD col none)

/-- The scanning loop of `Puzzle.is_region_valid`: `seen` collects the
placed values met so far; a value met twice returns `False`; the empty
sentinel is never added to `seen`. -/
def regionScan (p : Puzzle) : List Sq → Finset Nat → Bool
  | [], _ => true
  | s :: rest, seen =>
    match p.get s with
    | some v => if v ∈ seen then false else regionScan p rest (insert v seen)
    | none => regionScan p rest seen

/-- Embeds `Puzzle.is_region_valid(region)`: `None` is invalid, otherwise
no placed value may appear twice among the region's squares. -/
def Puzzle.is_region_valid (p : Puzzle) (region : Option (List Sq)) : Bool :=
  match region with
  | none => false
  | some reg => regionScan p reg ∅

/-- Embeds `Puzzle.is_valid(row, col, check_region)`: check the row at
index `row`, then the column at index `col`, then (when `check_region`)
the region containing `(row, col)`. -/
def Puzzle.is_valid (p : Puzzle) (row col : Nat) (check_region : Bool) : Bool :=
  if !lineOK (p.puzzle.getD row []) then false
  else if !lineOK (colCells p col) then false
  else if !check_region then true
  else p.is_region_valid (p.get_region (row, col))

/-- The row-and-column checking loop of `Puzzle.is_solved`: `col` starts at
`0`, and for each `row in range(height)` the loop checks
`is_valid(row, col % width, False)` and then increments `col`.  (Note that
this visits only the column indices `0 .. height-1`, reduced mod `width`.) -/
def rowColChecks (p : Puzzle) : Bool :=
  ((List.range p.height).foldl (fun s row =>
    let col := s.2 % p.width
    (s.1 && p.is_valid row col false, col + 1)) (true, 0)).1

/-- Embeds the decision computed by `Puzzle.is_solved()`: the cached
`solved` flag short-circuits to `True`; a positive `empty_slots_left`
short-circuits to `False`; otherwise every cell must be filled, the
row/column loop must pass, and every region must be valid.  The source
also caches a `True` result by setting `self.solved = True`; the solver
embeddings thread that write explicitly via `setSolved`. -/
def Puzzle.is_solved (p : Puzzle) : Bool :=
  if p.solved then true
  else if 0 < p.empty_slots_left then false
  else if !((List.range p.height).all fun row =>
      (List.range p.width).all fun col => (cellD p row col).isSome) then false
  else if !rowColChecks p then false
  else if !(p.regions.all fun reg => p.is_region_valid (some reg)) then false
  else true

/-- The `self.solved = True` write performed by `Puzzle.is_solved()` when
the full check succeeds. -/
def setSolved (p : Puzzle) : Puzzle := {p with solved := true}

/-- Embeds `Puzzle.test(row, col, num)`: remember the old cell value,
write `num`, check `is_valid(row, col)`; if valid decrement
`empty_slots_left` and return `True`, else restore the old value and
return `False`.  The returned pair is (mutated puzzle, result). -/
def Puzzle.test (p : Puzzle) (row col num : Nat) : Puzzle × Bool :=
  let temp := cellD p row col
  let p1 := setCell p row col (some num)
  if p1.is_valid row col true then
    ({p1 with empty_slots_left := p1.empty_slots_left - 1}, true)
  else
    (setCell p1 row col temp, false)

/-- Embeds `Puzzle.backtrack(row, col)`: reset the cell to `"."` and
increment `empty_slots_left`. -/
def Puzzle.backtrack (p : Puzzle) (row col : Nat) : Puzzle :=
  {setCell p row col none with empty_slots_left := p.empty_slots_left + 1}

/-- Run-time outcomes of the embedded solvers that Python surfaces as
exceptions, plus the model-only `fuel` marker for exhausted recursion
budget (the Python recursion has no such budget; every theorem below
evaluates runs whose budget is ample, so `fuel` never occurs in them). -/
inductive RunErr
  | oob
  | typ
  | fuel
deriving DecidableEq

/-- A program point of `BruteForce_Solver.solve_rec`: either an entry into
the recursive function at `(row, col)`, or an iteration of its
`while num < max_num` candidate loop (the loop result's `Bool` marks an
early `return puzzle` taken inside the loop).  A single tagged function
keeps the recursion structural in the fuel so that concrete runs reduce
definitionally. -/
inductive BFCall
  | entry (row col : Nat)
  | loop (row col num maxNum : Nat)

/-- Embeds `BruteForce_Solver.solve_rec(puzzle, row, col, calls)` (the
`calls` counter is dropped: no claim is about it), as one step function
over `BFCall` program points.  Structure of the source, `entry` case:
return if `is_solved()`; wrap `col` past the last column into the next
row; when `row >= height` return only if `is_solved()` — otherwise the
source falls through to `puzzle[row][col]`, which we model with
`List.get?` so that the `IndexError` case is the explicit `RunErr.oob`;
skip filled cells; otherwise run the candidate loop from `num = 0` up to
`len(region)` and backtrack if the loop ends without an early return.
`loop` case: increment `num`, `test` it, recurse on success (the
recursive result is the mutated puzzle, which the loop continues with),
and return early whenever `is_solved()`. -/
def bfStep : Nat → Puzzle → BFCall → Except RunErr (Puzzle × Bool)
  | 0, _, _ => .error .fuel
  | Nat.succ fuelLeft, p, .entry row col =>
    if p.is_solved then .ok (setSolved p, true) else
    let rc : Sq := if p.width ≤ col then (row + 1, 0) else (row, col)
    if p.height ≤ rc.1 && p.is_solved then .ok (setSolved p, true) else
    match (p.puzzle.get? rc.1).bind (fun r => r.get? rc.2) with
    | none => .error .oob
    | some (some _) => bfStep fuelLeft p (.entry rc.1 (rc.2 + 1))
    | some none =>
      match p.get_region (rc.1, rc.2) with
      | none => .error .typ
      | some reg =>
        match bfStep fuelLeft p (.loop rc.1 rc.2 0 reg.length) with
        | .error e => .error e
        | .ok (q, true) => .ok (q, true)
        | .ok (q, false) => .ok (q.backtrack rc.1 rc.2, true)
  | Nat.succ fuelLeft, p, .loop row col num maxNum =>
    if maxNum ≤ num then .ok (p, false) else
    let t := p.test row col (num + 1)
    match (if t.2 then bfStep fuelLeft t.1 (.entry row (col + 1)) else .ok (t.1, true) :
        Except RunErr (Puzzle × Bool)) with
    | .error e => .error e
    | .ok (q, _) =>
      if q.is_solved then .ok (setSolved q, true)
      else bfStep fuelLeft q (.loop row col (num + 1) maxNum)

/-- `BruteForce_Solver.solve_rec` itself: run `bfStep` at an `entry`
program point and keep (only) the resulting puzzle state, which the
source's `return puzzle` lines return in every non-exception case. -/
def solve_rec_bf (fuelBudget : Nat) (p : Puzzle) (row col : Nat) : Except RunErr Puzzle :=
  match bfStep fuelBudget p (.entry row col) with
  | .error e => .error e
  | .ok (q, _) => .ok q

/-- Records the truthiness of the expression `result.is_solved` as it
appears (without parentheses) in the guard `if not result.is_solved:` of
both `solve` entry points: `result.is_solved` is a *bound method object*,
not a call, and every bound method object is truthy in Python.  The guard
is therefore constantly false. -/
def method_truthy (_p : Puzzle) : Bool := true

/-- Embeds `BruteForce_Solver.solve(puzzle)` (without call counting): run
`solve_rec` from `(0, 0)`; then `if not result.is_solved: result = None` —
but see `method_truthy`: the attribute access is truthy, so the guard never
fires and the function never returns `None`. -/
def solve_bf (fuelBudget : Nat) (p : Puzzle) : Except RunErr (Option Puzzle) :=
  match solve_rec_bf fuelBudget p 0 0 with
  | .error e => .error e
  | .ok result => .ok (if !method_truthy result then none else some result)

/-- An element of the heuristic solver's `remaining` work list: a square
together with its candidate set (the source's `[square, set]` pairs). -/
abbrev Entry := Sq × Finset Nat

/-- The effective sort key of `sorted(remaining, key=lambda l: (len(l[1]),
l[0], l))`: candidate-set size, then row, then column.  (The third tuple
component `l` of the source key is only compared when the first two tie,
which cannot happen because squares are distinct.) -/
def entryKey (e : Entry) : Nat × Nat × Nat := (e.2.card, e.1.1, e.1.2)

/-- Lexicographic comparison of sort keys. -/
def keyLe (a b : Nat × Nat × Nat) : Prop :=
  a.1 < b.1 ∨ (a.1 = b.1 ∧ (a.2.1 < b.2.1 ∨ (a.2.1 = b.2.1 ∧ a.2.2 ≤ b.2.2)))

instance : DecidableRel keyLe := fun a b => by unfold keyLe; infer_instance

/-- The work-list ordering used by the heuristic solver: ascending
candidate-set size, ties broken by square coordinate in row-major order. -/
def entryRel (a b : Entry) : Prop := keyLe (entryKey a) (entryKey b)

instance : DecidableRel entryRel := fun a b => by unfold entryRel; infer_instance

instance : IsTotal Entry entryRel := by
  constructor; intro a b; unfold entryRel keyLe; omega

instance : IsTrans Entry entryRel := by
  constructor; intro a b c hab hbc; unfold entryRel keyLe at hab hbc ⊢; omega

/-- The `sorted(..., key=lambda l: (len(l[1]), l[0], l))` call shared by
the heuristic preprocessing and `update_remaining`.  Python's sort is a
stable sort; `List.insertionSort` is also stable, so the embedding matches
the source order exactly even for tied keys. -/
def pySortRemaining (l : List Entry) : List Entry := List.insertionSort entryRel l

/-- Embeds `Intelligent_Solver_Heuristic.update_remaining(remaining, row,
col, value, puzzle)`: `None` models the `TypeError` that
`set(puzzle.get_region(...))` raises when the region is missing.  For every
entry, a fresh copy of its candidate set is narrowed: discard `value` if
the entry shares the row within distance `value`, shares the column within
distance `value`, or lies in the placed square's region; then the new list
is re-sorted. -/
def update_remaining (remaining : List Entry) (row col value : Nat) (p : Puzzle) :
    Option (List Entry) :=
  match p.get_region (row, col) with
  | none => none
  | some reg =>
    some (pySortRemaining (remaining.map fun elem =>
      let temp := elem.2
      let temp := if elem.1.1 = row ∧ Nat.dist col elem.1.2 ≤ value then temp.erase value else temp
      let temp := if elem.1.2 = col ∧ Nat.dist row elem.1.1 ≤ value then temp.erase value else temp
      let temp := if elem.1 ∈ reg then temp.erase value else temp
      (elem.1, temp)))

/-- A value of the heuristic preprocessing dictionary `remaining_dict`: a
candidate set for a still-empty square, or the clue value (an `int` in the
source) for a pre-filled square. -/
inductive CandV
  | cand (s : Finset Nat)
  | clue (v : Nat)
deriving DecidableEq

/-- `remaining_dict`, as an association list in insertion order (Python
dicts preserve insertion order, and overwriting a key keeps its original
position, which `dictUpsert` mirrors). -/
abbrev CDict := List (Sq × CandV)

/-- Dict read `remaining_dict[square]`; `none` models `KeyError`. -/
def dictFind (k : Sq) : CDict → Option CandV
  | [] => none
  | e :: rest => if e.1 = k then some e.2 else dictFind k rest

/-- Dict write `remaining_dict[square] = v` (overwrite in place or append). -/
def dictUpsert (k : Sq) (v : CandV) : CDict → CDict
  | [] => [(k, v)]
  | e :: rest => if e.1 = k then (k, v) :: rest else e :: dictUpsert k v rest

/-- Enumerate a finite set of naturals in increasing order.  This is the
iteration order the embedding fixes wherever Python iterates over a `set`
of small integers in unspecified hash order.  (Defined by filtering a
range so that concrete instances reduce definitionally.) -/
def ascElems (s : Finset Nat) : List Nat :=
  (List.range (s.sup id + 1)).filter (fun x => x ∈ s)

/-- The per-region clue-value set of the heuristic preprocessing
(`regions[region]`): all placed values among the region's squares. -/
def regionUsed (p : Puzzle) (reg : List Sq) : Finset Nat :=
  reg.foldl (fun a s => match p.get s with | some v => insert v a | none => a) ∅

/-- Iterated Python `set.remove`: remove each listed value in turn;
`none` models the `KeyError` raised when a value is absent. -/
def pyRemoveList (s : Finset Nat) : List Nat → Option (Finset Nat)
  | [] => some s
  | v :: rest => if v ∈ s then pyRemoveList (s.erase v) rest else none

/-- The `possible = set(range(1, len(region) + 1)); for num in
regions[region]: possible.remove(num)` computation.  Python iterates the
`regions[region]` set in unspecified hash order; the embedding iterates in
increasing order, which yields the same result (and fails on the same
inputs) because removals of distinct values commute. -/
def regionPossible (p : Puzzle) (reg : List Sq) : Option (Finset Nat) :=
  pyRemoveList (Finset.Icc 1 reg.length) (ascElems (regionUsed p reg))

/-- The seeding loop body for one region: each empty square gets a copy of
the region's `possible` set, each clue square gets its value. -/
def seedRegion (p : Puzzle) (reg : List Sq) (possible : Finset Nat) (d : CDict) : CDict :=
  reg.foldl (fun d s =>
    match p.get s with
    | none => dictUpsert s (.cand possible) d
    | some v => dictUpsert s (.clue v) d) d

/-- The full seeding phase of `Intelligent_Solver_Heuristic.solve`: for
each region compute its remaining possible values and seed its squares.
(The `rows` and `cols` dictionaries that the source also fills in this
phase are never read afterwards — dead code — and are omitted.) -/
def seedDict (p : Puzzle) : Option CDict :=
  p.regions.foldlM (fun d reg => do
    let possible ← regionPossible p reg
    pure (seedRegion p reg possible d)) []

/-- One `remaining_dict[square]` narrowing step of the clue-pruning loops:
read the entry (`none` models the `KeyError` on a square that no region
covers), skip clue entries (`type(...) == int`), and discard `num` from a
candidate entry when the distance test `near` holds. -/
def pruneAt (num : Nat) (near : Bool) (s : Sq) (d : CDict) : Option CDict :=
  match dictFind s d with
  | none => none
  | some (.clue _) => some d
  | some (.cand c) => some (if near then dictUpsert s (.cand (c.erase num)) d else d)

/-- The row pass for a clue `num` at `(row, col)`: for every square
`(row, x)` of that row, discard `num` if `abs(x - col) <= num`. -/
def pruneRowPass (p : Puzzle) (row col num : Nat) (d : CDict) : Option CDict :=
  (List.range p.width).foldlM (fun d x => pruneAt num (decide (Nat.dist x col ≤ num)) (row, x) d) d

/-- The column pass for a clue `num` at `(row, col)`: for every square
`(x, col)` of that column, discard `num` if `abs(x - row) <= num`. -/
def pruneColPass (p : Puzzle) (row col num : Nat) (d : CDict) : Option CDict :=
  (List.range p.height).foldlM (fun d x => pruneAt num (decide (Nat.dist x row ≤ num)) (x, col) d) d

/-- The `reduce remaining possible values` loops of the heuristic `solve`:
visit the grid in row-major order and, for every clue cell, run the row
pass then the column pass. -/
def pruneClues (p : Puzzle) (d : CDict) : Option CDict :=
  (List.range p.height).foldlM (fun d row =>
    (List.range p.width).foldlM (fun d col =>
      match cellD p row col with
      | some num => do
        let d1 ← pruneRowPass p row col num d
        pruneColPass p row col num d1
      | none => pure d) d) d

/-- The `remaining = [[square, remaining_dict[square]] for square in
remaining_dict if type(remaining_dict[square]) != int]` comprehension:
keep the candidate-set entries, in dict order. -/
def buildRemaining (d : CDict) : List Entry :=
  d.filterMap (fun e => match e.2 with | .cand c => some (e.1, c) | .clue _ => none)

/-- The whole preprocessing phase of `Intelligent_Solver_Heuristic.solve`,
up to and including the initial sort of the work list. -/
def heuristic_preprocess (p : Puzzle) : Option (List Entry) := do
  let d ← seedDict p
  let d2 ← pruneClues p d
  pure (pySortRemaining (buildRemaining d2))

/-- A program point of `Intelligent_Solver_Heuristic.solve_rec`: an entry
into the recursive function, or an iteration of its `for num in
current[1]` loop over the queued candidate values. -/
inductive HCall
  | entry (remaining : List Entry)
  | loop (remaining : List Entry) (row col : Nat) (nums : List Nat)

/-- Embeds `Intelligent_Solver_Heuristic.solve_rec(puzzle, remaining,
calls)` (the `calls` counter is dropped), as one step function over
`HCall` program points.  `entry` case: return if `is_solved()`; otherwise
take `current = remaining[0]` (`RunErr.oob` models the `IndexError` when
the list is empty) and run the value loop over `current[1]` — Python
iterates this set in unspecified hash order, the embedding in increasing
order.  `loop` case: `test` the value; on success recurse with
`update_remaining(remaining[1:], ...)`; return early whenever
`is_solved()`; when the loop is exhausted, `backtrack` and return. -/
def hStep : Nat → Puzzle → HCall → Except RunErr Puzzle
  | 0, _, _ => .error .fuel
  | Nat.succ fuelLeft, p, .entry remaining =>
    if p.is_solved then .ok (setSolved p) else
    match remaining with
    | [] => .error .oob
    | current :: _ =>
      hStep fuelLeft p (.loop remaining current.1.1 current.1.2 (ascElems current.2))
  | Nat.succ fuelLeft, p, .loop remaining row col nums =>
    match nums with
    | [] => .ok (p.backtrack row col)
    | num :: rest =>
      let t := p.test row col num
      match (if t.2 then
               match update_remaining (remaining.drop 1) row col num t.1 with
               | none => .error .typ
               | some newRemaining => hStep fuelLeft t.1 (.entry newRemaining)
             else .ok t.1 : Except RunErr Puzzle) with
      | .error e => .error e
      | .ok q =>
        if q.is_solved then .ok (setSolved q)
        else hStep fuelLeft q (.loop remaining row col rest)

/-- `Intelligent_Solver_Heuristic.solve_rec` itself, from an `entry`
program point. -/
def solve_rec_h (fuelBudget : Nat) (p : Puzzle) (remaining : List Entry) :
    Except RunErr Puzzle :=
  hStep fuelBudget p (.entry remaining)

/-- Embeds `Intelligent_Solver_Heuristic.solve(puzzle)` (without call
counting): preprocess, run `solve_rec`, then `if not result.is_solved:
result = None` — but see `method_truthy`: the attribute access is truthy,
so the guard never fires and the function never returns `None`. -/
def solve_heuristic (fuelBudget : Nat) (p : Puzzle) : Except RunErr (Option Puzzle) :=
  match heuristic_preprocess p with
  | none => .error .typ
  | some remaining =>
    match solve_rec_h fuelBudget p remaining with
    | .error e => .error e
    | .ok result => .ok (if !method_truthy result then none else some result)

/-- A 1x2 puzzle with two empty cells in two size-1 regions.  Each cell can
only take the value 1, and two 1s one apart violate the separation rule, so
the puzzle has no solution. -/
def Puns : Puzzle :=
  mkPuzzle 2 1 [[none, none]] [[(0, 0)], [(0, 1)]]
    [((0, 0), [(0, 0)]), ((0, 1), [(0, 1)])]

/-- The state in which both solvers leave `Puns`: the grid is restored to
all-empty, but the final trailing `backtrack` calls of the failed search
have pushed `empty_slots_left` from 2 to 3. -/
def PunsAfter : Puzzle := {Puns with empty_slots_left := 3}

/-- A fully-clued 1x2 puzzle `[1, 1]` (two size-1 regions).  The two 1s are
one apart, so the row is invalid and the puzzle is unsolvable, yet every
cell is filled. -/
def Pclued : Puzzle :=
  mkPuzzle 2 1 [[some 1, some 1]] [[(0, 0)], [(0, 1)]]
    [((0, 0), [(0, 0)]), ((0, 1), [(0, 1)])]

/-- A fully-clued, well-formed 2x3 (height 2, width 3) puzzle: the two
regions are its two rows, each holding the values {1, 2, 3} with no
repeats and within `1..region_size`.  Its rows, its first two columns,
and its regions are all valid, but its third column holds two 1s one
apart — a separation-rule violation that `Puzzle.is_solved` never looks
at, because its row/column loop only checks column indices
`0 .. height-1`. -/
def Pwide : Puzzle :=
  mkPuzzle 3 2
    [[some 2, some 3, some 1], [some 3, some 2, some 1]]
    [[(0, 0), (0, 1), (0, 2)], [(1, 0), (1, 1), (1, 2)]]
    [((0, 0), [(0, 0), (0, 1), (0, 2)]), ((0, 1), [(0, 0), (0, 1), (0, 2)]),
     ((0, 2), [(0, 0), (0, 1), (0, 2)]), ((1, 0), [(1, 0), (1, 1), (1, 2)]),
     ((1, 1), [(1, 0), (1, 1), (1, 2)]), ((1, 2), [(1, 0), (1, 1), (1, 2)])]

/-- A 1x3 puzzle `[1, ., 2]` with a single region of size 3.  Placing 1 in
the middle cell fails validity (two 1s one apart), which makes `test`
restore the cell; a `backtrack` right after such a failed `test` is *not*
a state round trip. -/
def Pmid : Puzzle :=
  mkPuzzle 3 1 [[some 1, none, some 2]]
    [[(0, 0), (0, 1), (0, 2)]]
    [((0, 0), [(0, 0), (0, 1), (0, 2)]), ((0, 1), [(0, 0), (0, 1), (0, 2)]),
     ((0, 2), [(0, 0), (0, 1), (0, 2)])]

/-- A 1x3 puzzle `[., 2, .]` with a single region of size 3, used to
instantiate the heuristic-preprocessing theorem: the region's remaining
values are `{1, 3}`, and the clue 2 prunes nothing (2 is not a remaining
value). -/
def Pseed : Puzzle :=
  mkPuzzle 3 1 [[none, some 2, none]]
    [[(0, 0), (0, 1), (0, 2)]]
    [((0, 0), [(0, 0), (0, 1), (0, 2)]), ((0, 1), [(0, 0), (0, 1), (0, 2)]),
     ((0, 2), [(0, 0), (0, 1), (0, 2)])]

/-- The separation rule for one line (row or column), as the claims state
it: any two equal placed values at positions `p1 < p2` along the line
satisfy `p2 - p1 > value`. -/
def SepOK (line : List Cell) : Prop :=
  ∀ i j v, i < j → line.get? i = some (some v) → line.get? j = some (some v) → v < j - i

/-- The region uniqueness rule, as the claims state it: no placed value
appears at two (distinct positions of the) squares of the region. -/
def RegionDistinct (p : Puzzle) (reg : List Sq) : Prop :=
  List.Pairwise (fun s1 s2 => ∀ v, p.get s1 = some v → p.get s2 ≠ some v) reg

/-- The clue-pruning condition of the heuristic preprocessing, as the
claim states it: some clue cell `(r, c)` of the grid holds exactly the
value `x` and lies in the same row as `s` at column distance at most `x`,
or in the same column as `s` at row distance at most `x`. -/
def CluePrunes (p : Puzzle) (s : Sq) (x : Nat) : Prop :=
  ∃ r c, r < p.height ∧ c < p.width ∧ cellD p r c = some x ∧
    ((r = s.1 ∧ Nat.dist s.2 c ≤ x) ∨ (c = s.2 ∧ Nat.dist s.1 r ≤ x))

/-- The effect on square `s` of the two pruning passes run for one clue
`num` at `(r, c)`: the row pass removes `y = num` when `s` lies in row `r`
(within the grid width) at column distance at most `num`, the column pass
when `s` lies in column `c` (within the grid height) at row distance at
most `num`. -/
def PruneHit (p : Puzzle) (s : Sq) (r c num y : Nat) : Prop :=
  y = num ∧ ((r = s.1 ∧ s.2 < p.width ∧ Nat.dist s.2 c ≤ num) ∨
             (c = s.2 ∧ s.1 < p.height ∧ Nat.dist s.1 r ≤ num))

/-- C1: the claim says both `solve` entry points return `None` ("no
solution") when the search space is exhausted without a solution.  They do
not: on the unsolvable puzzle `Puns`, both searches exhaust and both
`solve` functions still return the puzzle object (in an unsolved state),
because the guard `if not result.is_solved:` tests the truthiness of the
bound method `result.is_solved` instead of calling it, so `result` is
never replaced by `None` — contradicting the docstring "otherwise return
None" of both files. -/
theorem C1_solve_never_returns_none :
    (∃ q, solve_bf 32 Puns = .ok (some q) ∧ q.is_solved = false) ∧
    (∃ q, solve_heuristic 32 Puns = .ok (some q) ∧ q.is_solved = false) :=
  ⟨⟨PunsAfter, by rfl, by decide⟩, ⟨PunsAfter, by rfl, by decide⟩⟩

/-- C2: the claim says `is_solved()` is true only if *every* column
satisfies the separation rule.  It is not: on the fully-clued puzzle
`Pwide` (width 3, height 2), `is_solved()` returns `True` although the
check `is_valid(0, 2, False)` of its third column fails — the row/column
loop of `is_solved` only visits column indices `0 .. height-1`, so for a
grid wider than it is tall the last columns are never checked. -/
theorem C2_is_solved_misses_wide_columns :
    Pwide.is_solved = true ∧ Pwide.is_valid 0 2 false = false := by
  decide

/-- C3: the claim says the two solvers either both return a solved grid or
both report failure.  On the unsolvable puzzle `Puns` neither happens:
both solvers return the puzzle object unsolved (the grid restored to
all-empty) instead of reporting failure, because of the
`if not result.is_solved:` truthiness bug described at `method_truthy`. -/
theorem C3_no_failure_reported_on_unsolvable :
    solve_bf 32 Puns = .ok (some PunsAfter) ∧
    solve_heuristic 32 Puns = .ok (some PunsAfter) ∧
    PunsAfter.is_solved = false ∧
    PunsAfter.puzzle = Puns.puzzle :=
  ⟨by rfl, by rfl, by decide, by decide⟩

/-- C4 counterexample: the `empty_slots_left` invariant does *not* hold
after every `backtrack` the search makes.  Running the brute-force search
on `Puns` ends with the trailing `backtrack(0, 0)` of the root call (its
result is the state the search returns), and in that state
`empty_slots_left = 3` while only 2 grid cells are empty: the trailing
`backtrack` of the failed inner call had already re-incremented the
counter for a cell that was already empty. -/
theorem C4_counterexample_backtrack_drift :
    solve_rec_bf 32 Puns 0 0 = .ok PunsAfter ∧
    PunsAfter.empty_slots_left = 3 ∧
    countEmpty PunsAfter.puzzle = 2 :=
  ⟨by rfl, by decide, by decide⟩

/-- C6 counterexample: a `test` immediately followed by `backtrack` on the
same cell is *not* always a state round trip.  On `Pmid`, `test(0, 1, 1)`
fails (two 1s one apart in the row) and restores the grid without touching
`empty_slots_left`; the subsequent `backtrack(0, 1)` then increments
`empty_slots_left` from 1 to 2, so the pair of calls changed the state. -/
theorem C6_counterexample_failed_test_backtrack :
    (Pmid.test 0 1 1).2 = false ∧
    ((Pmid.test 0 1 1).1.backtrack 0 1).puzzle = Pmid.puzzle ∧
    ((Pmid.test 0 1 1).1.backtrack 0 1).empty_slots_left = 2 ∧
    Pmid.empty_slots_left = 1 := by
  decide

/-- C10: the claim says that whenever the brute-force `solve_rec` is
entered with the adjusted cell index past the last row, `is_solved()`
returns true, making the subsequent `puzzle[row][col]` read unreachable for
every input puzzle.  It is reachable: on the fully-clued but invalid
puzzle `Pclued` (`[1, 1]` in one row), the skip chain reaches row 1 of a
1-row grid with `is_solved()` false (the row check fails), and the source
falls through to `puzzle[1][0]`, an out-of-bounds read (`IndexError`),
modelled here as `RunErr.oob`. -/
theorem C10_out_of_bounds_read_reachable :
    solve_rec_bf 32 Pclued 0 0 = .error .oob ∧ Pclued.is_solved = false :=
  ⟨by rfl, by decide⟩

/-! ### List helper lemmas for the placement/undo protocol -/

theorem set_getD_self {α : Type} : ∀ (l : List α) (i : Nat) (d : α),
    i < l.length → l.set i (l.getD i d) = l
  | [], i, d, h => by simp at h
  | a :: rest, 0, d, _ => by
    rw [List.getD_cons_zero, List.set_cons_zero]
  | a :: rest, Nat.succ i, d, h => by
    rw [List.getD_cons_succ, List.set_cons_succ,
      set_getD_self rest i d (by simpa using h)]

theorem getD_set_self {α : Type} : ∀ (l : List α) (i : Nat) (a d : α),
    (l.set i a).getD i d = if i < l.length then a else d
  | [], i, a, d => by simp
  | b :: rest, 0, a, d => by simp
  | b :: rest, Nat.succ i, a, d => by
    rw [List.set_cons_succ, List.getD_cons_succ, getD_set_self rest i a d]
    simp [Nat.succ_lt_succ_iff]

theorem getD_oob {α : Type} : ∀ (l : List α) (i : Nat) (d : α),
    l.length ≤ i → l.getD i d = d
  | [], i, d, _ => by simp
  | b :: rest, Nat.succ i, d, h => by
    rw [List.getD_cons_succ]
    exact getD_oob rest i d (by simpa using h)

theorem set_oob {α : Type} : ∀ (l : List α) (i : Nat) (a : α),
    l.length ≤ i → l.set i a = l
  | [], _, _, _ => by simp
  | b :: rest, Nat.succ i, a, h => by
    rw [List.set_cons_succ, set_oob rest i a (by simpa using h)]

theorem countNoneRow_set : ∀ (l : List Cell) (i : Nat) (a : Cell), i < l.length →
    countNoneRow (l.set i a) + (if l.getD i none = none then 1 else 0) =
      countNoneRow l + (if a = none then 1 else 0)
  | [], i, a, h => by simp at h
  | c :: rest, 0, a, _ => by
    rw [List.getD_cons_zero, List.set_cons_zero]
    simp only [countNoneRow]
    omega
  | c :: rest, Nat.succ i, a, h => by
    rw [List.getD_cons_succ, List.set_cons_succ]
    simp only [countNoneRow]
    have := countNoneRow_set rest i a (by simpa using h)
    omega

theorem countEmpty_set : ∀ (g : List (List Cell)) (r : Nat) (nr : List Cell), r < g.length →
    countEmpty (g.set r nr) + countNoneRow (g.getD r []) =
      countEmpty g + countNoneRow nr
  | [], r, nr, h => by simp at h
  | row :: rest, 0, nr, _ => by
    rw [List.getD_cons_zero, List.set_cons_zero]
    simp only [countEmpty]
    omega
  | row :: rest, Nat.succ r, nr, h => by
    rw [List.getD_cons_succ, List.set_cons_succ]
    simp only [countEmpty]
    have := countEmpty_set rest r nr (by simpa using h)
    omega

theorem initEmptyCount_row : ∀ (row : List Cell) (acc : Int),
    row.foldl (fun a e => if e = none then a + 1 else a) acc =
      acc + (countNoneRow row : Int)
  | [], acc => by simp [countNoneRow]
  | c :: rest, acc => by
    simp only [List.foldl, countNoneRow]
    rw [initEmptyCount_row rest]
    by_cases h : c = none
    · simp only [h, if_true]
      push_cast
      ring
    · simp only [h, if_false]
      push_cast
      ring

theorem initEmptyCount_eq : ∀ (grid : List (List Cell)),
    initEmptyCount grid = (countEmpty grid : Int) := by
  have main : ∀ (grid : List (List Cell)) (acc : Int),
      grid.foldl (fun acc row =>
        row.foldl (fun a e => if e = none then a + 1 else a) acc) acc =
        acc + (countEmpty grid : Int) := by
    intro grid
    induction grid with
    | nil => intro acc; simp [countEmpty]
    | cons row rest ih =>
      intro acc
      simp only [List.foldl, countEmpty]
      rw [ih, initEmptyCount_row]
      push_cast
      ring
  intro grid
  simpa using main grid 0

/-! ### The contract of `Puzzle.test` and `Puzzle.backtrack` -/

/-- The body of `Puzzle.test`, spelled out (definitional). -/
theorem test_def (p : Puzzle) (row col num : Nat) :
    p.test row col num =
      if (setCell p row col (some num)).is_valid row col true then
        ({setCell p row col (some num) with
          empty_slots_left := p.empty_slots_left - 1}, true)
      else
        (setCell (setCell p row col (some num)) row col (cellD p row col), false) :=
  rfl

/-- The exact effect of `Puzzle.test` (shared helper): the returned flag is
the validity of the staged grid; on success the staged grid is committed
with `empty_slots_left` decremented; on failure the state is restored
exactly. -/
theorem test_spec (p : Puzzle) (row col num : Nat)
    (hr : row < p.puzzle.length) (hc : col < (p.puzzle.getD row []).length) :
    (p.test row col num).2 = (setCell p row col (some num)).is_valid row col true ∧
    ((p.test row col num).2 = true →
      (p.test row col num).1 =
        {setCell p row col (some num) with
          empty_slots_left := p.empty_slots_left - 1}) ∧
    ((p.test row col num).2 = false → (p.test row col num).1 = p) := by
  rw [test_def]
  by_cases h : (setCell p row col (some num)).is_valid row col true = true
  · rw [if_pos h]
    exact ⟨h.symm, fun _ => rfl, fun hf => absurd hf (by simp)⟩
  · rw [if_neg h]
    refine ⟨by simp [Bool.not_eq_true] at h; rw [h], fun ht => absurd ht (by simp), fun _ => ?_⟩
    have hgrid : (setCell (setCell p row col (some num)) row col (cellD p row col)).puzzle
        = p.puzzle := by
      show (p.puzzle.set row ((p.puzzle.getD row []).set col (some num))).set row
          (((p.puzzle.set row ((p.puzzle.getD row []).set col (some num))).getD row []).set col
            (cellD p row col)) = p.puzzle
      rw [getD_set_self, if_pos hr, List.set_set, List.set_set]
      have hcd : cellD p row col = (p.puzzle.getD row []).getD col none := rfl
      rw [hcd, set_getD_self _ _ _ hc, set_getD_self _ _ _ hr]
    show setCell (setCell p row col (some num)) row col (cellD p row col) = p
    have hsplit : setCell (setCell p row col (some num)) row col (cellD p row col) =
        {p with puzzle :=
          (setCell (setCell p row col (some num)) row col (cellD p row col)).puzzle} := rfl
    rw [hsplit, hgrid]

/-- The exact effect of `Puzzle.backtrack` (shared helper): the cell is
reset to empty and `empty_slots_left` is incremented by exactly one. -/
theorem backtrack_spec (q : Puzzle) (row col : Nat) :
    (q.backtrack row col).empty_slots_left = q.empty_slots_left + 1 ∧
    cellD (q.backtrack row col) row col = none := by
  refine ⟨rfl, ?_⟩
  show ((q.puzzle.set row ((q.puzzle.getD row []).set col none)).getD row []).getD col none = none
  by_cases hr : row < q.puzzle.length
  · rw [getD_set_self, if_pos hr, getD_set_self, ite_self]
  · rw [set_oob _ _ _ (by omega), getD_oob q.puzzle row [] (by omega)]
    simp

/-- C5: `test` stages the value into the cell and checks row, column and
region validity of the staged grid; if valid it commits the staged value,
decrements `empty_slots_left` and returns true; if invalid it restores the
cell's previous value — leaving the whole state, including
`empty_slots_left`, exactly as before — and returns false. -/
theorem C5_test_contract (p : Puzzle) (row col num : Nat)
    (hr : row < p.puzzle.length) (hc : col < (p.puzzle.getD row []).length) :
    (p.test row col num).2 = (setCell p row col (some num)).is_valid row col true ∧
    ((p.test row col num).2 = true →
      (p.test row col num).1 =
        {setCell p row col (some num) with
          empty_slots_left := p.empty_slots_left - 1}) ∧
    ((p.test row col num).2 = false → (p.test row col num).1 = p) :=
  test_spec p row col num hr hc

theorem C5_test_contract_witness :
    (Pmid.test 0 1 1).2 = (setCell Pmid 0 1 (some 1)).is_valid 0 1 true ∧
    ((Pmid.test 0 1 1).2 = true →
      (Pmid.test 0 1 1).1 =
        {setCell Pmid 0 1 (some 1) with
          empty_slots_left := Pmid.empty_slots_left - 1}) ∧
    ((Pmid.test 0 1 1).2 = false → (Pmid.test 0 1 1).1 = Pmid) :=
  C5_test_contract Pmid 0 1 1 (by decide) (by decide)

/-- C6 (amended): if the cell is empty and `test` succeeds there, then
`backtrack` on the same cell is an exact inverse — the grid and
`empty_slots_left` return to their values before the pair of calls; and
`backtrack` itself always resets the cell to empty and increments
`empty_slots_left` by exactly one.  (When `test` fails the pair is not a
round trip: see the counterexample.) -/
theorem C6_roundtrip_amended :
    (∀ (p : Puzzle) (row col num : Nat),
      row < p.puzzle.length → col < (p.puzzle.getD row []).length →
      cellD p row col = none → (p.test row col num).2 = true →
      (p.test row col num).1.backtrack row col = p) ∧
    (∀ (q : Puzzle) (row col : Nat),
      (q.backtrack row col).empty_slots_left = q.empty_slots_left + 1 ∧
      cellD (q.backtrack row col) row col = none) := by
  constructor
  · intro p row col num hr hc hempty hsucc
    rw [(test_spec p row col num hr hc).2.1 hsucc]
    have hgrid :
        (({setCell p row col (some num) with
            empty_slots_left := p.empty_slots_left - 1} : Puzzle).backtrack row col).puzzle
          = p.puzzle := by
      show (p.puzzle.set row ((p.puzzle.getD row []).set col (some num))).set row
          (((p.puzzle.set row ((p.puzzle.getD row []).set col (some num))).getD row []).set col
            none) = p.puzzle
      rw [getD_set_self, if_pos hr, List.set_set, List.set_set]
      have hcd : (none : Cell) = (p.puzzle.getD row []).getD col none := by
        rw [show (p.puzzle.getD row []).getD col none = cellD p row col from rfl, hempty]
      rw [hcd, set_getD_self _ _ _ hc, set_getD_self _ _ _ hr]
    have hsplit :
        ({setCell p row col (some num) with
            empty_slots_left := p.empty_slots_left - 1} : Puzzle).backtrack row col =
          {p with
            puzzle := (({setCell p row col (some num) with
              empty_slots_left := p.empty_slots_left - 1} : Puzzle).backtrack row col).puzzle,
            empty_slots_left := p.empty_slots_left - 1 + 1} := rfl
    rw [hsplit, hgrid]
    have harith : p.empty_slots_left - 1 + 1 = p.empty_slots_left := by ring
    rw [harith]
  · exact backtrack_spec

theorem C6_roundtrip_amended_witness :
    (Puns.test 0 0 1).1.backtrack 0 0 = Puns ∧
    (Puns.backtrack 0 1).empty_slots_left = Puns.empty_slots_left + 1 :=
  ⟨C6_roundtrip_amended.1 Puns 0 0 1 (by decide) (by decide) (by decide) (by decide),
   (C6_roundtrip_amended.2 Puns 0 1).1⟩

/-- C4 (amended): `empty_slots_left` equals the count of empty cells after
construction; a `test` on an empty in-bounds cell preserves the equality;
a `backtrack` on a filled in-bounds cell preserves it; but a `backtrack`
on an already-empty cell — exactly what the search's trailing `backtrack`
after an exhausted candidate loop does — leaves `empty_slots_left` one
greater than the count (until a later successful `test` over a filled cell
re-synchronizes it). -/
theorem C4_empty_slots_invariant_amended :
    (∀ (w h : Nat) (grid : List (List Cell)) (regs : List (List Sq))
      (rm : List (Sq × List Sq)),
      (mkPuzzle w h grid regs rm).empty_slots_left = (countEmpty grid : Int)) ∧
    (∀ (p : Puzzle) (row col num : Nat),
      p.empty_slots_left = (countEmpty p.puzzle : Int) →
      row < p.puzzle.length → col < (p.puzzle.getD row []).length →
      cellD p row col = none →
      (p.test row col num).1.empty_slots_left =
        (countEmpty (p.test row col num).1.puzzle : Int)) ∧
    (∀ (p : Puzzle) (row col w : Nat),
      p.empty_slots_left = (countEmpty p.puzzle : Int) →
      row < p.puzzle.length → col < (p.puzzle.getD row []).length →
      cellD p row col = some w →
      (p.backtrack row col).empty_slots_left =
        (countEmpty (p.backtrack row col).puzzle : Int)) ∧
    (∀ (p : Puzzle) (row col : Nat),
      p.empty_slots_left = (countEmpty p.puzzle : Int) →
      row < p.puzzle.length → col < (p.puzzle.getD row []).length →
      cellD p row col = none →
      (p.backtrack row col).empty_slots_left =
        (countEmpty (p.backtrack row col).puzzle : Int) + 1) := by
  have hgridcount : ∀ (p : Puzzle) (row col : Nat) (v : Cell),
      row < p.puzzle.length → col < (p.puzzle.getD row []).length →
      countEmpty (p.puzzle.set row ((p.puzzle.getD row []).set col v)) +
          (if cellD p row col = none then 1 else 0) =
        countEmpty p.puzzle + (if v = none then 1 else 0) := by
    intro p row col v hr hc
    have h1 := countEmpty_set p.puzzle row ((p.puzzle.getD row []).set col v) hr
    have h2 := countNoneRow_set (p.puzzle.getD row []) col v hc
    have hcd : cellD p row col = (p.puzzle.getD row []).getD col none := rfl
    rw [hcd]
    omega
  refine ⟨?_, ?_, ?_, ?_⟩
  · intro w h grid regs rm
    simpa [mkPuzzle] using initEmptyCount_eq grid
  · intro p row col num hinv hr hc hempty
    rcases htest : (p.test row col num).2 with _ | _
    · rw [(test_spec p row col num hr hc).2.2 htest, hinv]
    · rw [(test_spec p row col num hr hc).2.1 htest]
      have hcount := hgridcount p row col (some num) hr hc
      simp only [hempty, if_true, reduceCtorEq, if_false] at hcount
      show p.empty_slots_left - 1 =
        (countEmpty (p.puzzle.set row ((p.puzzle.getD row []).set col (some num))) : Int)
      omega
  · intro p row col w hinv hr hc hfull
    have hcount := hgridcount p row col none hr hc
    simp only [hfull, reduceCtorEq, if_false, if_true] at hcount
    show p.empty_slots_left + 1 =
      (countEmpty (p.puzzle.set row ((p.puzzle.getD row []).set col none)) : Int)
    omega
  · intro p row col hinv hr hc hempty
    have hcount := hgridcount p row col none hr hc
    simp only [hempty, if_true] at hcount
    show p.empty_slots_left + 1 =
      (countEmpty (p.puzzle.set row ((p.puzzle.getD row []).set col none)) : Int) + 1
    omega

theorem C4_empty_slots_invariant_amended_witness :
    (mkPuzzle 2 1 [[none, none]] [[(0, 0)], [(0, 1)]]
        [((0, 0), [(0, 0)]), ((0, 1), [(0, 1)])]).empty_slots_left =
      (countEmpty [[none, none]] : Int) ∧
    (Puns.test 0 0 1).1.empty_slots_left =
      (countEmpty (Puns.test 0 0 1).1.puzzle : Int) ∧
    (Pmid.backtrack 0 0).empty_slots_left =
      (countEmpty (Pmid.backtrack 0 0).puzzle : Int) ∧
    (Puns.backtrack 0 1).empty_slots_left =
      (countEmpty (Puns.backtrack 0 1).puzzle : Int) + 1 :=
  ⟨C4_empty_slots_invariant_amended.1 2 1 [[none, none]] [[(0, 0)], [(0, 1)]]
      [((0, 0), [(0, 0)]), ((0, 1), [(0, 1)])],
   C4_empty_slots_invariant_amended.2.1 Puns 0 0 1 (by decide) (by decide)
      (by decide) (by decide),
   C4_empty_slots_invariant_amended.2.2.1 Pmid 0 0 1 (by decide) (by decide)
      (by decide) (by decide),
   C4_empty_slots_invariant_amended.2.2.2 Puns 0 1 (by decide) (by decide)
      (by decide) (by decide)⟩

/-! ### The heuristic solver's ordered work list (C9) -/

theorem narrowed_subset (s : Finset Nat) (v : Nat) (c1 c2 c3 : Prop)
    [Decidable c1] [Decidable c2] [Decidable c3] :
    (if c3 then
        (if c2 then (if c1 then s.erase v else s).erase v
         else if c1 then s.erase v else s).erase v
      else if c2 then (if c1 then s.erase v else s).erase v
        else if c1 then s.erase v else s) ⊆ s := by
  have h1 : (if c1 then s.erase v else s) ⊆ s := by
    split
    · exact Finset.erase_subset v s
    · exact Finset.Subset.refl s
  have h2 : (if c2 then (if c1 then s.erase v else s).erase v
      else if c1 then s.erase v else s) ⊆ s := by
    split
    · exact Finset.Subset.trans (Finset.erase_subset _ _) h1
    · exact h1
  split
  · exact Finset.Subset.trans (Finset.erase_subset _ _) h2
  · exact h2

/-- C9: the initial work list built by the heuristic preprocessing, and
every narrowed list produced by `update_remaining`, are sorted by
ascending candidate-set size with ties broken by square coordinate in
row-major order (`entryRel`); and `update_remaining` only narrows
candidate sets — every entry of the new list carries a subset of the
candidate set that the same square had in the old list — so along a
descent of the search candidate sets are never re-expanded. -/
theorem C9_worklist_sorted_and_narrowing :
    (∀ (p : Puzzle) (rem : List Entry),
      heuristic_preprocess p = some rem → List.Sorted entryRel rem) ∧
    (∀ (rem : List Entry) (row col v : Nat) (p : Puzzle) (rem2 : List Entry),
      update_remaining rem row col v p = some rem2 →
      List.Sorted entryRel rem2 ∧
      ∀ e ∈ rem2, ∃ c0, (e.1, c0) ∈ rem ∧ e.2 ⊆ c0) := by
  constructor
  · intro p rem h
    unfold heuristic_preprocess at h
    rcases hseed : seedDict p with _ | d
    · rw [hseed] at h; simp at h
    · rw [hseed] at h
      simp only [Option.bind_eq_bind, Option.some_bind] at h
      rcases hprune : pruneClues p d with _ | d2
      · rw [hprune] at h; simp at h
      · rw [hprune] at h
        simp only [Option.some_bind, Option.pure_def, Option.some.injEq] at h
        rw [← h]
        exact List.sorted_insertionSort entryRel (buildRemaining d2)
  · intro rem row col v p rem2 h
    unfold update_remaining at h
    rcases hreg : p.get_region (row, col) with _ | reg
    · rw [hreg] at h; simp at h
    · rw [hreg] at h
      simp only [Option.some.injEq] at h
      constructor
      · rw [← h]
        exact List.sorted_insertionSort entryRel _
      · intro e he
        rw [← h] at he
        have he2 : e ∈ (rem.map fun elem =>
            let temp := elem.2
            let temp := if elem.1.1 = row ∧ Nat.dist col elem.1.2 ≤ v
              then temp.erase v else temp
            let temp := if elem.1.2 = col ∧ Nat.dist row elem.1.1 ≤ v
              then temp.erase v else temp
            let temp := if elem.1 ∈ reg then temp.erase v else temp
            (elem.1, temp)) :=
          (List.perm_insertionSort entryRel _).mem_iff.mp he
        rcases List.mem_map.mp he2 with ⟨e0, he0, heq⟩
        refine ⟨e0.2, ?_, ?_⟩
        · rw [← heq]; simpa using he0
        · rw [← heq]
          exact narrowed_subset e0.2 v _ _ _

theorem C9_worklist_sorted_and_narrowing_witness :
    List.Sorted entryRel ((heuristic_preprocess Pseed).getD []) ∧
    List.Sorted entryRel
      ((update_remaining [((0, 2), ({1, 3} : Finset Nat))] 0 0 1 Pseed).getD []) :=
  ⟨C9_worklist_sorted_and_narrowing.1 Pseed _ rfl,
   (C9_worklist_sorted_and_narrowing.2 [((0, 2), ({1, 3} : Finset Nat))] 0 0 1 Pseed
      _ rfl).1⟩

/-! ### Characterization of `Puzzle.is_valid` (C7) -/

theorem get?_some_lt {α : Type} : ∀ (l : List α) (i : Nat) (a : α),
    l.get? i = some a → i < l.length
  | [], i, a, h => by simp at h
  | b :: l, 0, a, _ => by simp
  | b :: l, Nat.succ i, a, h => by
    simp only [List.get?_cons_succ] at h
    simpa using Nat.succ_lt_succ (get?_some_lt l i a h)

theorem get?_append_left {α : Type} : ∀ (l l2 : List α) (i : Nat), i < l.length →
    (l ++ l2).get? i = l.get? i
  | [], _, i, h => by simp at h
  | b :: l, l2, 0, _ => rfl
  | b :: l, l2, Nat.succ i, h => by
    simp only [List.cons_append, List.get?_cons_succ]
    exact get?_append_left l l2 i (by simpa using h)

theorem get?_append_len {α : Type} : ∀ (l : List α) (c : α) (l2 : List α),
    (l ++ c :: l2).get? l.length = some c
  | [], c, l2 => rfl
  | b :: l, c, l2 => by
    simp only [List.cons_append, List.length_cons, List.get?_cons_succ]
    exact get?_append_len l c l2

theorem get?_snoc {α : Type} : ∀ (l : List α) (a : α) (i : Nat),
    (l ++ [a]).get? i =
      if i < l.length then l.get? i else if i = l.length then some a else none
  | [], a, 0 => rfl
  | [], a, Nat.succ i => by simp
  | b :: l, a, 0 => by simp
  | b :: l, a, Nat.succ i => by
    simp only [List.cons_append, List.get?_cons_succ, List.length_cons]
    rw [get?_snoc l a i]
    split_ifs <;> first | rfl | omega

theorem lookupPrev_updatePrev_self : ∀ (prev : List (Nat × List Nat)) (v : Nat) (l : List Nat),
    lookupPrev v (updatePrev v l prev) = some l
  | [], v, l => by simp [updatePrev, lookupPrev]
  | e :: rest, v, l => by
    by_cases h : e.1 = v
    · simp [updatePrev, lookupPrev, h]
    · simp [updatePrev, lookupPrev, h, lookupPrev_updatePrev_self rest v l]

theorem lookupPrev_updatePrev_ne : ∀ (prev : List (Nat × List Nat)) (v w : Nat)
    (l : List Nat), w ≠ v →
    lookupPrev w (updatePrev v l prev) = lookupPrev w prev
  | [], v, w, l, h => by
    have hvw : ¬(v = w) := fun hh => h hh.symm
    simp [updatePrev, lookupPrev, hvw]
  | e :: rest, v, w, l, h => by
    have hvw : ¬(v = w) := fun hh => h hh.symm
    by_cases he : e.1 = v
    · have hew : ¬(e.1 = w) := by rw [he]; exact hvw
      simp [updatePrev, lookupPrev, he, hew, hvw]
    · by_cases hew : e.1 = w
      · simp [updatePrev, lookupPrev, he, hew, hvw, h]
      · simp [updatePrev, lookupPrev, he, hew, hvw,
          lookupPrev_updatePrev_ne rest v w l h]

theorem sepOK_snoc (done : List Cell) (c : Cell) (hdone : SepOK done)
    (hnew : ∀ i v, done.get? i = some (some v) → c = some v → v < done.length - i) :
    SepOK (done ++ [c]) := by
  intro i j v hij hi hj
  rw [get?_snoc] at hi hj
  by_cases hjlen : j < done.length
  · rw [if_pos hjlen] at hj
    have hilen : i < done.length := by omega
    rw [if_pos hilen] at hi
    exact hdone i j v hij hi hj
  · rw [if_neg hjlen] at hj
    by_cases hjeq : j = done.length
    · rw [if_pos hjeq] at hj
      have hilen : i < done.length := by omega
      rw [if_pos hilen] at hi
      have hcv : c = some v := Option.some.inj hj
      rw [hjeq]
      exact hnew i v hi hcv
    · rw [if_neg hjeq] at hj
      exact absurd hj (by simp)

theorem sepOK_of_append (l l2 : List Cell) (h : SepOK (l ++ l2)) : SepOK l := by
  intro i j v hij hi hj
  have hjl := get?_some_lt _ _ _ hj
  have hil := get?_some_lt _ _ _ hi
  exact h i j v hij
    (by rw [get?_append_left _ _ _ hil]; exact hi)
    (by rw [get?_append_left _ _ _ hjl]; exact hj)

theorem lineScan_iff : ∀ (rest done : List Cell) (prev : List (Nat × List Nat)),
    (∀ v i, i ∈ (lookupPrev v prev).getD [] ↔ done.get? i = some (some v)) →
    SepOK done →
    (lineScan rest done.length prev = true ↔ SepOK (done ++ rest))
  | [], done, prev, _, hdone => by
    simp only [lineScan, List.append_nil]
    exact ⟨fun _ => hdone, fun _ => trivial⟩
  | none :: rest, done, prev, hinv, hdone => by
    have hstep : lineScan (none :: rest) done.length prev =
        lineScan rest (done.length + 1) prev := rfl
    have hinv2 : ∀ v i, i ∈ (lookupPrev v prev).getD [] ↔
        (done ++ [(none : Cell)]).get? i = some (some v) := by
      intro v i
      rw [get?_snoc]
      constructor
      · intro h
        have hd := (hinv v i).mp h
        rw [if_pos (get?_some_lt _ _ _ hd)]
        exact hd
      · intro h
        apply (hinv v i).mpr
        by_cases h1 : i < done.length
        · rwa [if_pos h1] at h
        · rw [if_neg h1] at h
          by_cases h2 : i = done.length
          · rw [if_pos h2] at h
            exact absurd (Option.some.inj h) (by simp)
          · rw [if_neg h2] at h
            exact absurd h (by simp)
    have hdone2 : SepOK (done ++ [(none : Cell)]) :=
      sepOK_snoc done none hdone (fun i v _ hc => absurd hc (by simp))
    have hlen : (done ++ [(none : Cell)]).length = done.length + 1 := by simp
    have := lineScan_iff rest (done ++ [none]) prev hinv2 hdone2
    rw [hlen] at this
    rw [hstep, this, List.append_assoc, List.singleton_append]
  | some v :: rest, done, prev, hinv, hdone => by
    rcases hlk : lookupPrev v prev with _ | idxs
    · have hstep : lineScan (some v :: rest) done.length prev =
          lineScan rest (done.length + 1) (updatePrev v [done.length] prev) := by
        simp only [lineScan, hlk]
      have hnoear : ∀ i, ¬ done.get? i = some (some v) := by
        intro i hd
        have := (hinv v i).mpr hd
        rw [hlk] at this
        simp at this
      have hinv2 : ∀ w i, i ∈ (lookupPrev w (updatePrev v [done.length] prev)).getD [] ↔
          (done ++ [(some v : Cell)]).get? i = some (some w) := by
        intro w i
        rw [get?_snoc]
        by_cases hw : w = v
        · rw [hw, lookupPrev_updatePrev_self]
          constructor
          · intro h
            have hik : i = done.length := by simpa using h
            rw [if_neg (by omega), if_pos hik]
          · intro h
            by_cases h1 : i < done.length
            · rw [if_pos h1] at h
              exact absurd h (hnoear i)
            · rw [if_neg h1] at h
              by_cases h2 : i = done.length
              · simp [h2]
              · rw [if_neg h2] at h
                exact absurd h (by simp)
        · rw [lookupPrev_updatePrev_ne prev v w _ hw]
          constructor
          · intro h
            have hd := (hinv w i).mp h
            rw [if_pos (get?_some_lt _ _ _ hd)]
            exact hd
          · intro h
            apply (hinv w i).mpr
            by_cases h1 : i < done.length
            · rwa [if_pos h1] at h
            · rw [if_neg h1] at h
              by_cases h2 : i = done.length
              · rw [if_pos h2] at h
                exact absurd (Option.some.inj (Option.some.inj h)).symm hw
              · rw [if_neg h2] at h
                exact absurd h (by simp)
      have hdone2 : SepOK (done ++ [(some v : Cell)]) :=
        sepOK_snoc done (some v) hdone (fun i w hi hc => by
          rw [← Option.some.inj hc] at hi
          exact absurd hi (hnoear i))
      have hlen : (done ++ [(some v : Cell)]).length = done.length + 1 := by simp
      have := lineScan_iff rest (done ++ [some v]) (updatePrev v [done.length] prev)
        hinv2 hdone2
      rw [hlen] at this
      rw [hstep, this, List.append_assoc, List.singleton_append]
    · by_cases hany : idxs.any (fun i => done.length - i ≤ v) = true
      · have hstep : lineScan (some v :: rest) done.length prev = false := by
          simp only [lineScan, hlk, hany, if_true]
        rw [hstep]
        rcases List.any_eq_true.mp hany with ⟨i, hi_mem, hi_le⟩
        have hi_done : done.get? i = some (some v) := by
          apply (hinv v i).mp
          rw [hlk]
          simpa using hi_mem
        have hi_lt : i < done.length := get?_some_lt _ _ _ hi_done
        constructor
        · intro h; exact absurd h (by simp)
        · intro hsep
          have h1 : (done ++ some v :: rest).get? i = some (some v) := by
            rw [get?_append_left _ _ _ hi_lt]; exact hi_done
          have h2 : (done ++ some v :: rest).get? done.length = some (some v) :=
            get?_append_len done (some v) rest
          have := hsep i done.length v hi_lt h1 h2
          have hle : done.length - i ≤ v := by simpa using hi_le
          omega
      · have hstep : lineScan (some v :: rest) done.length prev =
            lineScan rest (done.length + 1) (updatePrev v (idxs ++ [done.length]) prev) := by
          simp only [lineScan, hlk, hany, if_false]
          rfl
        have hviol : ∀ i ∈ idxs, v < done.length - i := by
          intro i hi
          by_contra hcon
          apply hany
          exact List.any_eq_true.mpr ⟨i, hi, by simpa using hcon⟩
        have hmem_idxs : ∀ i, i ∈ idxs ↔ done.get? i = some (some v) := by
          intro i
          rw [← hinv v i, hlk]
          simp
        have hinv2 : ∀ w i,
            i ∈ (lookupPrev w (updatePrev v (idxs ++ [done.length]) prev)).getD [] ↔
            (done ++ [(some v : Cell)]).get? i = some (some w) := by
          intro w i
          rw [get?_snoc]
          by_cases hw : w = v
          · rw [hw, lookupPrev_updatePrev_self]
            simp only [Option.getD_some, List.mem_append, List.mem_singleton]
            constructor
            · intro h
              rcases h with h | h
              · have hd := (hmem_idxs i).mp h
                rw [if_pos (get?_some_lt _ _ _ hd)]
                exact hd
              · rw [if_neg (by omega), if_pos h]
            · intro h
              by_cases h1 : i < done.length
              · rw [if_pos h1] at h
                exact Or.inl ((hmem_idxs i).mpr h)
              · rw [if_neg h1] at h
                by_cases h2 : i = done.length
                · exact Or.inr h2
                · rw [if_neg h2] at h
                  exact absurd h (by simp)
          · rw [lookupPrev_updatePrev_ne prev v w _ hw]
            constructor
            · intro h
              have hd := (hinv w i).mp h
              rw [if_pos (get?_some_lt _ _ _ hd)]
              exact hd
            · intro h
              apply (hinv w i).mpr
              by_cases h1 : i < done.length
              · rwa [if_pos h1] at h
              · rw [if_neg h1] at h
                by_cases h2 : i = done.length
                · rw [if_pos h2] at h
                  exact absurd (Option.some.inj (Option.some.inj h)).symm hw
                · rw [if_neg h2] at h
                  exact absurd h (by simp)
        have hdone2 : SepOK (done ++ [(some v : Cell)]) :=
          sepOK_snoc done (some v) hdone (fun i w hi hc => by
            rw [← Option.some.inj hc] at hi ⊢
            exact hviol i ((hmem_idxs i).mpr hi))
        have hlen : (done ++ [(some v : Cell)]).length = done.length + 1 := by simp
        have := lineScan_iff rest (done ++ [some v])
          (updatePrev v (idxs ++ [done.length]) prev) hinv2 hdone2
        rw [hlen] at this
        rw [hstep, this, List.append_assoc, List.singleton_append]

theorem lineOK_iff (line : List Cell) : lineOK line = true ↔ SepOK line := by
  have h := lineScan_iff line [] []
    (by intro v i; simp [lookupPrev])
    (by intro i j v _ hi _; simp at hi)
  simpa [lineOK] using h

theorem regionScan_iff (p : Puzzle) : ∀ (rest : List Sq) (seen : Finset Nat),
    regionScan p rest seen = true ↔
      (List.Pairwise (fun s1 s2 => ∀ v, p.get s1 = some v → p.get s2 ≠ some v) rest ∧
       ∀ s ∈ rest, ∀ v, p.get s = some v → v ∉ seen)
  | [], seen => by simp [regionScan]
  | s :: rest, seen => by
    rcases hv : p.get s with _ | v
    · have hstep : regionScan p (s :: rest) seen = regionScan p rest seen := by
        simp only [regionScan, hv]
      rw [hstep, regionScan_iff p rest seen, List.pairwise_cons]
      constructor
      · rintro ⟨hpw, hseen⟩
        refine ⟨⟨?_, hpw⟩, ?_⟩
        · intro s2 _ w hw
          rw [hv] at hw
          exact absurd hw (by simp)
        · intro s2 hs2 w hw
          rcases List.mem_cons.mp hs2 with h | h
          · rw [h] at hw
            rw [hv] at hw
            exact absurd hw (by simp)
          · exact hseen s2 h w hw
      · rintro ⟨⟨_, hpw⟩, hseen⟩
        exact ⟨hpw, fun s2 hs2 w hw => hseen s2 (List.mem_cons_of_mem s hs2) w hw⟩
    · by_cases hmem : v ∈ seen
      · have hstep : regionScan p (s :: rest) seen = false := by
          simp only [regionScan, hv, hmem, if_pos]
        rw [hstep]
        constructor
        · intro h
          exact absurd h (by simp)
        · rintro ⟨_, hseen⟩
          exact absurd hmem (hseen s (List.mem_cons_self s rest) v hv)
      · have hstep : regionScan p (s :: rest) seen = regionScan p rest (insert v seen) := by
          simp only [regionScan, hv, hmem, if_false]
        rw [hstep, regionScan_iff p rest (insert v seen), List.pairwise_cons]
        constructor
        · rintro ⟨hpw, hseen⟩
          refine ⟨⟨?_, hpw⟩, ?_⟩
          · intro s2 hs2 w hw hw2
            rw [hv] at hw
            have hwv : v = w := Option.some.inj hw
            have := hseen s2 hs2 w hw2
            rw [← hwv] at this
            exact this (Finset.mem_insert_self v seen)
          · intro s2 hs2 w hw
            rcases List.mem_cons.mp hs2 with h | h
            · rw [h] at hw
              rw [hv] at hw
              rw [← Option.some.inj hw]
              exact hmem
            · have := hseen s2 h w hw
              rw [Finset.mem_insert] at this
              push_neg at this
              exact this.2
        · rintro ⟨⟨hhead, hpw⟩, hseen⟩
          refine ⟨hpw, ?_⟩
          intro s2 hs2 w hw
          rw [Finset.mem_insert]
          push_neg
          constructor
          · intro hwv
            rw [hwv] at hw
            exact hhead s2 hs2 v hv hw
          · exact hseen s2 (List.mem_cons_of_mem s hs2) w hw

theorem is_region_valid_iff (p : Puzzle) (reg : List Sq) :
    p.is_region_valid (some reg) = true ↔ RegionDistinct p reg := by
  have h := regionScan_iff p reg ∅
  rw [show p.is_region_valid (some reg) = regionScan p reg ∅ from rfl, h]
  unfold RegionDistinct
  simp

/-- C7: for in-bounds indices, `is_valid(row, col, check_region)` is true
iff the row at `row` and the column at `col` each satisfy the pairwise
separation rule (every two equal placed values at positions `p1 < p2`
along the line satisfy `p2 - p1 > value`), and — when `check_region` is
set — the square's region exists (an unrecognized region makes the check
false) and contains no duplicated placed value. -/
theorem C7_is_valid_characterization (p : Puzzle) (row col : Nat) (check_region : Bool)
    (hrow : row < p.puzzle.length) (hcol : ∀ r ∈ p.puzzle, col < r.length) :
    p.is_valid row col check_region = true ↔
      (SepOK (p.puzzle.getD row []) ∧ SepOK (colCells p col) ∧
        (check_region = true →
          ∃ reg, p.get_region (row, col) = some reg ∧ RegionDistinct p reg)) := by
  clear hrow hcol
  unfold Puzzle.is_valid
  rcases h1 : lineOK (p.puzzle.getD row []) with _ | _
  · simp only [h1, Bool.not_false, if_true]
    constructor
    · intro h
      exact absurd h (by simp)
    · rintro ⟨hs, _⟩
      rw [(lineOK_iff _).mpr hs] at h1
      exact absurd h1 (by simp)
  · simp only [h1, Bool.not_true, Bool.false_eq_true, if_false]
    rcases h2 : lineOK (colCells p col) with _ | _
    · simp only [h2, Bool.not_false, if_true]
      constructor
      · intro h
        exact absurd h (by simp)
      · rintro ⟨_, hs, _⟩
        rw [(lineOK_iff _).mpr hs] at h2
        exact absurd h2 (by simp)
    · simp only [h2, Bool.not_true, Bool.false_eq_true, if_false]
      rcases check_region with _ | _
      · simp only [Bool.not_false, if_true]
        exact ⟨fun _ => ⟨(lineOK_iff _).mp h1, (lineOK_iff _).mp h2, by simp⟩,
          fun _ => trivial⟩
      · simp only [Bool.not_true, Bool.false_eq_true, if_false]
        rcases hreg : p.get_region (row, col) with _ | reg
        · rw [show p.is_region_valid none = false from rfl]
          constructor
          · intro h
            exact absurd h (by simp)
          · rintro ⟨_, _, hex⟩
            rcases hex trivial with ⟨reg, hr, _⟩
            exact absurd hr (by simp)
        · rw [is_region_valid_iff]
          constructor
          · intro h
            exact ⟨(lineOK_iff _).mp h1, (lineOK_iff _).mp h2,
              fun _ => ⟨reg, rfl, h⟩⟩
          · rintro ⟨_, _, hex⟩
            rcases hex trivial with ⟨reg2, hr2, hd2⟩
            rw [Option.some.inj hr2]
            exact hd2

theorem C7_is_valid_characterization_witness :
    Pmid.is_valid 0 0 true = true ↔
      (SepOK (Pmid.puzzle.getD 0 []) ∧ SepOK (colCells Pmid 0) ∧
        (true = true →
          ∃ reg, Pmid.get_region (0, 0) = some reg ∧ RegionDistinct Pmid reg)) :=
  C7_is_valid_characterization Pmid 0 0 true (by decide) (by decide)

/-! ### Characterization of the heuristic preprocessing (C8) -/

theorem regionUsed_go (p : Puzzle) : ∀ (reg : List Sq) (a : Finset Nat) (x : Nat),
    x ∈ reg.foldl (fun a s => match p.get s with | some v => insert v a | none => a) a ↔
      x ∈ a ∨ ∃ s ∈ reg, p.get s = some x
  | [], a, x => by simp
  | s :: rest, a, x => by
    rw [List.foldl_cons]
    rcases hv : p.get s with _ | v
    · rw [regionUsed_go p rest a x]
      simp only [List.mem_cons]
      constructor
      · rintro (h | ⟨s2, hs2, hx⟩)
        · exact Or.inl h
        · exact Or.inr ⟨s2, Or.inr hs2, hx⟩
      · rintro (h | ⟨s2, hs2, hx⟩)
        · exact Or.inl h
        · rcases hs2 with h2 | h2
          · rw [h2, hv] at hx
            exact absurd hx (by simp)
          · exact Or.inr ⟨s2, h2, hx⟩
    · rw [regionUsed_go p rest (insert v a) x]
      simp only [Finset.mem_insert, List.mem_cons]
      constructor
      · rintro ((h | h) | ⟨s2, hs2, hx⟩)
        · exact Or.inr ⟨s, Or.inl rfl, by rw [hv, h]⟩
        · exact Or.inl h
        · exact Or.inr ⟨s2, Or.inr hs2, hx⟩
      · rintro (h | ⟨s2, hs2, hx⟩)
        · exact Or.inl (Or.inr h)
        · rcases hs2 with h2 | h2
          · rw [h2, hv] at hx
            exact Or.inl (Or.inl (Option.some.inj hx).symm)
          · exact Or.inr ⟨s2, h2, hx⟩

theorem regionUsed_mem (p : Puzzle) (reg : List Sq) (x : Nat) :
    x ∈ regionUsed p reg ↔ ∃ s ∈ reg, p.get s = some x := by
  rw [regionUsed, regionUsed_go]
  simp

theorem pyRemoveList_mem : ∀ (l : List Nat) (s t : Finset Nat),
    pyRemoveList s l = some t → ∀ x, (x ∈ t ↔ x ∈ s ∧ x ∉ l)
  | [], s, t, h, x => by
    rw [pyRemoveList] at h
    rw [← Option.some.inj h]
    simp
  | v :: rest, s, t, h, x => by
    rw [pyRemoveList] at h
    by_cases hv : v ∈ s
    · rw [if_pos hv] at h
      rw [pyRemoveList_mem rest (s.erase v) t h x, Finset.mem_erase]
      simp only [List.mem_cons]
      constructor
      · rintro ⟨⟨hne, hs⟩, hr⟩
        exact ⟨hs, by rintro (h | h); exact hne h; exact hr h⟩
      · rintro ⟨hs, hnot⟩
        exact ⟨⟨fun h => hnot (Or.inl h), hs⟩, fun h => hnot (Or.inr h)⟩
    · rw [if_neg hv] at h
      exact absurd h (by simp)

theorem ascElems_mem (s : Finset Nat) (x : Nat) : x ∈ ascElems s ↔ x ∈ s := by
  rw [ascElems, List.mem_filter]
  constructor
  · rintro ⟨_, h⟩
    simpa using h
  · intro h
    refine ⟨?_, by simpa using h⟩
    rw [List.mem_range]
    have : x ≤ s.sup id := Finset.le_sup (f := id) h
    omega

theorem regionPossible_mem (p : Puzzle) (reg : List Sq) (poss : Finset Nat)
    (h : regionPossible p reg = some poss) (x : Nat) :
    x ∈ poss ↔ (1 ≤ x ∧ x ≤ reg.length ∧ ¬∃ s ∈ reg, p.get s = some x) := by
  rw [regionPossible] at h
  rw [pyRemoveList_mem _ _ _ h x, Finset.mem_Icc, ascElems_mem, regionUsed_mem]
  tauto

theorem dictFind_upsert_self (k : Sq) (v : CandV) : ∀ (d : CDict),
    dictFind k (dictUpsert k v d) = some v
  | [] => by simp [dictUpsert, dictFind]
  | e :: rest => by
    by_cases h : e.1 = k
    · simp [dictUpsert, dictFind, h]
    · simp [dictUpsert, dictFind, h, dictFind_upsert_self k v rest]

theorem dictFind_upsert_ne (k k2 : Sq) (v : CandV) (h : k2 ≠ k) : ∀ (d : CDict),
    dictFind k2 (dictUpsert k v d) = dictFind k2 d
  | [] => by
    have hkk : ¬(k = k2) := fun hh => h hh.symm
    simp [dictUpsert, dictFind, hkk]
  | e :: rest => by
    have hkk : ¬(k = k2) := fun hh => h hh.symm
    by_cases he : e.1 = k
    · have hek : ¬(e.1 = k2) := by rw [he]; exact hkk
      simp [dictUpsert, dictFind, he, hek, hkk]
    · by_cases he2 : e.1 = k2
      · simp [dictUpsert, dictFind, he, he2, hkk, h]
      · simp [dictUpsert, dictFind, he, he2, hkk, h, dictFind_upsert_ne k k2 v h rest]

theorem seedRegion_find_notmem (p : Puzzle) (possible : Finset Nat) (s : Sq) :
    ∀ (reg : List Sq) (d : CDict), s ∉ reg →
    dictFind s (seedRegion p reg possible d) = dictFind s d
  | [], d, _ => rfl
  | s2 :: rest, d, hs => by
    have hne : s ≠ s2 := fun h => hs (by rw [h]; exact List.mem_cons_self s2 rest)
    have hrest : s ∉ rest := fun h => hs (List.mem_cons_of_mem s2 h)
    rw [show seedRegion p (s2 :: rest) possible d =
        seedRegion p rest possible
          (match p.get s2 with
           | none => dictUpsert s2 (.cand possible) d
           | some v => dictUpsert s2 (.clue v) d) from rfl]
    rw [seedRegion_find_notmem p possible s rest _ hrest]
    rcases hv : p.get s2 with _ | v
    · simp only [hv]
      exact dictFind_upsert_ne s2 s _ hne d
    · simp only [hv]
      exact dictFind_upsert_ne s2 s _ hne d

theorem seedRegion_find_mem (p : Puzzle) (possible : Finset Nat) (s : Sq)
    (hempty : p.get s = none) :
    ∀ (reg : List Sq) (d : CDict),
    (s ∈ reg ∨ dictFind s d = some (.cand possible)) →
    dictFind s (seedRegion p reg possible d) = some (.cand possible)
  | [], d, hd => by
    rcases hd with h | h
    · exact absurd h (by simp)
    · exact h
  | s2 :: rest, d, hd => by
    rw [show seedRegion p (s2 :: rest) possible d =
        seedRegion p rest possible
          (match p.get s2 with
           | none => dictUpsert s2 (.cand possible) d
           | some v => dictUpsert s2 (.clue v) d) from rfl]
    by_cases he : s2 = s
    · apply seedRegion_find_mem p possible s hempty rest
      right
      rw [he, hempty]
      exact dictFind_upsert_self s _ d
    · apply seedRegion_find_mem p possible s hempty rest
      rcases hd with h | h
      · rcases List.mem_cons.mp h with h2 | h2
        · exact absurd h2.symm he
        · exact Or.inl h2
      · right
        rcases hv : p.get s2 with _ | v
        · simp only [hv]
          rw [dictFind_upsert_ne s2 s _ (fun hh => he hh.symm) d]
          exact h
        · simp only [hv]
          rw [dictFind_upsert_ne s2 s _ (fun hh => he hh.symm) d]
          exact h

theorem seedDict_fold_find (p : Puzzle) (s : Sq) (reg : List Sq) (poss : Finset Nat)
    (hempty : p.get s = none) (hsreg : s ∈ reg)
    (hposs : regionPossible p reg = some poss) :
    ∀ (regs : List (List Sq)) (d d2 : CDict),
    (regs.foldlM (fun d reg => do
      let possible ← regionPossible p reg
      pure (seedRegion p reg possible d)) d) = some d2 →
    (∀ reg2 ∈ regs, s ∈ reg2 → reg2 = reg) →
    (reg ∈ regs ∨ dictFind s d = some (.cand poss)) →
    dictFind s d2 = some (.cand poss)
  | [], d, d2, hfold, _, hd => by
    rcases hd with h | h
    · exact absurd h (by simp)
    · rw [show d2 = d from (Option.some.inj hfold.symm)]
      exact h
  | r0 :: rest, d, d2, hfold, huniq, hd => by
    rw [List.foldlM_cons] at hfold
    rcases hp0 : regionPossible p r0 with _ | poss0
    · rw [hp0] at hfold
      exact absurd hfold (by simp)
    · rw [hp0] at hfold
      simp only [Option.bind_eq_bind, Option.some_bind, Option.pure_def] at hfold
      by_cases hs0 : s ∈ r0
      · have hr0 : r0 = reg := huniq r0 (List.mem_cons_self r0 rest) hs0
        rw [hr0] at hp0
        have hpeq : poss0 = poss := by
          rw [hp0] at hposs
          exact Option.some.inj hposs
        apply seedDict_fold_find p s reg poss hempty hsreg hposs rest _ d2 hfold
          (fun reg2 h2 => huniq reg2 (List.mem_cons_of_mem r0 h2))
        right
        rw [hpeq] at *
        apply seedRegion_find_mem p poss s hempty r0 d
        rw [hr0]
        exact Or.inl hsreg
      · apply seedDict_fold_find p s reg poss hempty hsreg hposs rest _ d2 hfold
          (fun reg2 h2 => huniq reg2 (List.mem_cons_of_mem r0 h2))
        rcases hd with h | h
        · rcases List.mem_cons.mp h with h2 | h2
          · rw [h2] at hsreg
            exact absurd hsreg hs0
          · exact Or.inl h2
        · right
          rw [seedRegion_find_notmem p poss0 s r0 d hs0]
          exact h

theorem seedDict_find (p : Puzzle) (s : Sq) (reg : List Sq) (poss : Finset Nat)
    (d0 : CDict)
    (hempty : p.get s = none) (hsreg : s ∈ reg) (hmem : reg ∈ p.regions)
    (huniq : ∀ reg2 ∈ p.regions, s ∈ reg2 → reg2 = reg)
    (hposs : regionPossible p reg = some poss)
    (hseed : seedDict p = some d0) :
    dictFind s d0 = some (.cand poss) :=
  seedDict_fold_find p s reg poss hempty hsreg hposs p.regions [] d0 hseed huniq
    (Or.inl hmem)

theorem pruneAt_find (num : Nat) (near : Bool) (s2 s : Sq) (d d2 : CDict) (c : Finset Nat)
    (h : pruneAt num near s2 d = some d2) (hf : dictFind s d = some (.cand c)) :
    dictFind s d2 = some (.cand (if s2 = s ∧ near = true then c.erase num else c)) := by
  rw [pruneAt] at h
  rcases h2 : dictFind s2 d with _ | cv
  · rw [h2] at h
    exact absurd h (by simp)
  · rw [h2] at h
    rcases cv with c2 | v
    · simp only [Option.some.injEq] at h
      rcases hnear : near with _ | _
      · rw [hnear] at h
        simp only [Bool.false_eq_true, if_false] at h
        rw [← h, hf, if_neg (by simp [hnear])]
      · rw [hnear] at h
        simp only [if_true] at h
        by_cases hs : s2 = s
        · have hc2 : c2 = c := by
            rw [hs] at h2
            rw [h2] at hf
            exact CandV.cand.inj (Option.some.inj hf)
          rw [← h, hs, dictFind_upsert_self s _ d, hc2,
            if_pos (by exact ⟨rfl, rfl⟩)]
        · rw [← h, dictFind_upsert_ne s2 s _ (fun hh => hs hh.symm) d, hf,
            if_neg (by intro hcon; exact hs hcon.1)]
    · simp only [Option.some.injEq] at h
      have hs : ¬(s2 = s) := by
        intro hss
        rw [hss, hf] at h2
        exact absurd (Option.some.inj h2.symm) (by simp)
      rw [← h, hf, if_neg (by intro hcon; exact hs hcon.1)]

theorem prunePass_find : ∀ (xs : List Nat) (f : Nat → Sq) (num : Nat)
    (nearf : Nat → Bool) (d d2 : CDict) (s : Sq) (c : Finset Nat),
    (xs.foldlM (fun d x => pruneAt num (nearf x) (f x) d) d) = some d2 →
    dictFind s d = some (.cand c) →
    ∃ c2, dictFind s d2 = some (.cand c2) ∧
      ∀ y, (y ∈ c2 ↔ y ∈ c ∧ ¬(y = num ∧ ∃ x ∈ xs, f x = s ∧ nearf x = true))
  | [], f, num, nearf, d, d2, s, c, hfold, hf => by
    rw [List.foldlM_nil] at hfold
    refine ⟨c, by rw [← Option.some.inj hfold]; exact hf, ?_⟩
    intro y
    simp
  | x :: rest, f, num, nearf, d, d2, s, c, hfold, hf => by
    rw [List.foldlM_cons] at hfold
    rcases hpr : pruneAt num (nearf x) (f x) d with _ | d1
    · rw [hpr] at hfold
      exact absurd hfold (by simp)
    · rw [hpr] at hfold
      simp only [Option.bind_eq_bind, Option.some_bind] at hfold
      have hf1 := pruneAt_find num (nearf x) (f x) s d d1 c hpr hf
      rcases prunePass_find rest f num nearf d1 d2 s _ hfold hf1 with ⟨c2, hfind, hiff⟩
      refine ⟨c2, hfind, ?_⟩
      intro y
      rw [hiff y]
      by_cases hcond : f x = s ∧ nearf x = true
      · rw [if_pos hcond, Finset.mem_erase]
        constructor
        · rintro ⟨⟨hne, hy⟩, hrest⟩
          refine ⟨hy, ?_⟩
          rintro ⟨hynum, x2, hx2, hfx2, hnear2⟩
          rcases List.mem_cons.mp hx2 with h | h
          · exact hne hynum
          · exact hrest ⟨hynum, x2, h, hfx2, hnear2⟩
        · rintro ⟨hy, hno⟩
          refine ⟨⟨?_, hy⟩, ?_⟩
          · intro hynum
            exact hno ⟨hynum, x, List.mem_cons_self x rest, hcond.1, hcond.2⟩
          · rintro ⟨hynum, x2, hx2, hfx2, hnear2⟩
            exact hno ⟨hynum, x2, List.mem_cons_of_mem x hx2, hfx2, hnear2⟩
      · rw [if_neg hcond]
        constructor
        · rintro ⟨hy, hrest⟩
          refine ⟨hy, ?_⟩
          rintro ⟨hynum, x2, hx2, hfx2, hnear2⟩
          rcases List.mem_cons.mp hx2 with h | h
          · rw [h] at hfx2 hnear2
            exact hcond ⟨hfx2, hnear2⟩
          · exact hrest ⟨hynum, x2, h, hfx2, hnear2⟩
        · rintro ⟨hy, hno⟩
          refine ⟨hy, ?_⟩
          rintro ⟨hynum, x2, hx2, hfx2, hnear2⟩
          exact hno ⟨hynum, x2, List.mem_cons_of_mem x hx2, hfx2, hnear2⟩

theorem pruneCluePasses_find (p : Puzzle) (row col num : Nat) (d dB : CDict) (s : Sq)
    (c : Finset Nat)
    (h : (do
        let d1 ← pruneRowPass p row col num d
        pruneColPass p row col num d1) = some dB)
    (hf : dictFind s d = some (.cand c)) :
    ∃ c2, dictFind s dB = some (.cand c2) ∧
      ∀ y, (y ∈ c2 ↔ y ∈ c ∧ ¬PruneHit p s row col num y) := by
  rcases hrp : pruneRowPass p row col num d with _ | d1
  · rw [hrp] at h
    exact absurd h (by simp)
  · rw [hrp] at h
    simp only [Option.bind_eq_bind, Option.some_bind] at h
    rw [pruneRowPass] at hrp
    rcases prunePass_find (List.range p.width) (fun x => (row, x)) num
        (fun x => decide (Nat.dist x col ≤ num)) d d1 s c hrp hf with ⟨cA, hfA, hiffA⟩
    rw [pruneColPass] at h
    rcases prunePass_find (List.range p.height) (fun x => (x, col)) num
        (fun x => decide (Nat.dist x row ≤ num)) d1 dB s cA h hfA with ⟨cB, hfB, hiffB⟩
    refine ⟨cB, hfB, ?_⟩
    intro y
    have hX : (∃ x ∈ List.range p.width, (row, x) = s ∧
        decide (Nat.dist x col ≤ num) = true) ↔
        (row = s.1 ∧ s.2 < p.width ∧ Nat.dist s.2 col ≤ num) := by
      constructor
      · rintro ⟨x, hx, heq, hdec⟩
        have h1 : row = s.1 ∧ x = s.2 := by
          constructor
          · rw [← heq]
          · rw [← heq]
        rw [List.mem_range] at hx
        rw [decide_eq_true_eq] at hdec
        rw [← h1.2]
        exact ⟨h1.1, hx, hdec⟩
      · rintro ⟨hr, hw, hd⟩
        refine ⟨s.2, List.mem_range.mpr hw, ?_, by rw [decide_eq_true_eq]; exact hd⟩
        rw [hr]
    have hY : (∃ x ∈ List.range p.height, (x, col) = s ∧
        decide (Nat.dist x row ≤ num) = true) ↔
        (col = s.2 ∧ s.1 < p.height ∧ Nat.dist s.1 row ≤ num) := by
      constructor
      · rintro ⟨x, hx, heq, hdec⟩
        have h1 : x = s.1 ∧ col = s.2 := by
          constructor
          · rw [← heq]
          · rw [← heq]
        rw [List.mem_range] at hx
        rw [decide_eq_true_eq] at hdec
        rw [← h1.1]
        exact ⟨h1.2, hx, hdec⟩
      · rintro ⟨hc, hh, hd⟩
        refine ⟨s.1, List.mem_range.mpr hh, ?_, by rw [decide_eq_true_eq]; exact hd⟩
        rw [hc]
    rw [hiffB y, hiffA y]
    unfold PruneHit
    rw [hX, hY]
    tauto

theorem pruneCols_fold_find (p : Puzzle) (row : Nat) :
    ∀ (cols : List Nat) (d d2 : CDict) (s : Sq) (c : Finset Nat),
    (cols.foldlM (fun d col =>
      match cellD p row col with
      | some num => do
        let d1 ← pruneRowPass p row col num d
        pruneColPass p row col num d1
      | none => pure d) d) = some d2 →
    dictFind s d = some (.cand c) →
    ∃ c2, dictFind s d2 = some (.cand c2) ∧
      ∀ y, (y ∈ c2 ↔ y ∈ c ∧
        ∀ col ∈ cols, ∀ num, cellD p row col = some num → ¬PruneHit p s row col num y)
  | [], d, d2, s, c, hfold, hf => by
    rw [List.foldlM_nil] at hfold
    refine ⟨c, by rw [← Option.some.inj hfold]; exact hf, ?_⟩
    intro y
    simp
  | col :: rest, d, d2, s, c, hfold, hf => by
    rw [List.foldlM_cons] at hfold
    rcases hcell : cellD p row col with _ | num
    · rw [hcell] at hfold
      simp only [Option.pure_def, Option.bind_eq_bind, Option.some_bind] at hfold
      rcases pruneCols_fold_find p row rest d d2 s c hfold hf with ⟨c2, hfind, hiff⟩
      refine ⟨c2, hfind, ?_⟩
      intro y
      rw [hiff y]
      constructor
      · rintro ⟨hy, hcl⟩
        refine ⟨hy, ?_⟩
        intro col2 hcol2 num2 hcell2
        rcases List.mem_cons.mp hcol2 with h | h
        · rw [h] at hcell2
          rw [hcell] at hcell2
          exact absurd hcell2 (by simp)
        · exact hcl col2 h num2 hcell2
      · rintro ⟨hy, hcl⟩
        exact ⟨hy, fun col2 h num2 hc2 =>
          hcl col2 (List.mem_cons_of_mem col h) num2 hc2⟩
    · rw [hcell] at hfold
      simp only [Option.bind_eq_bind] at hfold
      rcases hdo : ((pruneRowPass p row col num d).bind fun d1 =>
          pruneColPass p row col num d1) with _ | dB
      · rw [hdo] at hfold
        exact absurd hfold (by simp)
      · rw [hdo] at hfold
        simp only [Option.bind_eq_bind, Option.some_bind] at hfold
        rcases pruneCluePasses_find p row col num d dB s c hdo hf with ⟨cB, hfB, hiffB⟩
        rcases pruneCols_fold_find p row rest dB d2 s cB hfold hfB with ⟨c2, hfind, hiff⟩
        refine ⟨c2, hfind, ?_⟩
        intro y
        rw [hiff y, hiffB y]
        constructor
        · rintro ⟨⟨hy, hhead⟩, hcl⟩
          refine ⟨hy, ?_⟩
          intro col2 hcol2 num2 hcell2
          rcases List.mem_cons.mp hcol2 with h | h
          · rw [h] at hcell2
            rw [hcell] at hcell2
            rw [h, ← Option.some.inj hcell2]
            exact hhead
          · exact hcl col2 h num2 hcell2
        · rintro ⟨hy, hcl⟩
          exact ⟨⟨hy, hcl col (List.mem_cons_self col rest) num hcell⟩,
            fun col2 h num2 hc2 => hcl col2 (List.mem_cons_of_mem col h) num2 hc2⟩

theorem pruneRows_fold_find (p : Puzzle) :
    ∀ (rows : List Nat) (d d2 : CDict) (s : Sq) (c : Finset Nat),
    (rows.foldlM (fun d row =>
      (List.range p.width).foldlM (fun d col =>
        match cellD p row col with
        | some num => do
          let d1 ← pruneRowPass p row col num d
          pruneColPass p row col num d1
        | none => pure d) d) d) = some d2 →
    dictFind s d = some (.cand c) →
    ∃ c2, dictFind s d2 = some (.cand c2) ∧
      ∀ y, (y ∈ c2 ↔ y ∈ c ∧
        ∀ row ∈ rows, ∀ col ∈ List.range p.width, ∀ num,
          cellD p row col = some num → ¬PruneHit p s row col num y)
  | [], d, d2, s, c, hfold, hf => by
    rw [List.foldlM_nil] at hfold
    refine ⟨c, by rw [← Option.some.inj hfold]; exact hf, ?_⟩
    intro y
    simp
  | row :: rest, d, d2, s, c, hfold, hf => by
    rw [List.foldlM_cons] at hfold
    rcases hrow : ((List.range p.width).foldlM (fun d col =>
        match cellD p row col with
        | some num => do
          let d1 ← pruneRowPass p row col num d
          pruneColPass p row col num d1
        | none => pure d) d) with _ | dB
    · rw [hrow] at hfold
      exact absurd hfold (by simp)
    · rw [hrow] at hfold
      simp only [Option.bind_eq_bind, Option.some_bind] at hfold
      rcases pruneCols_fold_find p row (List.range p.width) d dB s c hrow hf with
        ⟨cB, hfB, hiffB⟩
      rcases pruneRows_fold_find p rest dB d2 s cB hfold hfB with ⟨c2, hfind, hiff⟩
      refine ⟨c2, hfind, ?_⟩
      intro y
      rw [hiff y, hiffB y]
      constructor
      · rintro ⟨⟨hy, hhead⟩, hcl⟩
        refine ⟨hy, ?_⟩
        intro row2 hrow2 col2 hcol2 num2 hcell2
        rcases List.mem_cons.mp hrow2 with h | h
        · rw [h] at hcell2 ⊢
          exact hhead col2 hcol2 num2 hcell2
        · exact hcl row2 h col2 hcol2 num2 hcell2
      · rintro ⟨hy, hcl⟩
        exact ⟨⟨hy, fun col2 hc2 num2 hcell2 =>
            hcl row (List.mem_cons_self row rest) col2 hc2 num2 hcell2⟩,
          fun row2 h col2 hc2 num2 hcell2 =>
            hcl row2 (List.mem_cons_of_mem row h) col2 hc2 num2 hcell2⟩

theorem pruneClues_find (p : Puzzle) (d d2 : CDict) (s : Sq) (c : Finset Nat)
    (h : pruneClues p d = some d2) (hf : dictFind s d = some (.cand c))
    (hs1 : s.1 < p.height) (hs2 : s.2 < p.width) :
    ∃ c2, dictFind s d2 = some (.cand c2) ∧
      ∀ y, (y ∈ c2 ↔ y ∈ c ∧ ¬CluePrunes p s y) := by
  rw [pruneClues] at h
  rcases pruneRows_fold_find p (List.range p.height) d d2 s c h hf with ⟨c2, hfind, hiff⟩
  refine ⟨c2, hfind, ?_⟩
  intro y
  rw [hiff y]
  constructor
  · rintro ⟨hy, hcl⟩
    refine ⟨hy, ?_⟩
    rintro ⟨r, cc, hr, hc, hcell, hdisj⟩
    apply hcl r (List.mem_range.mpr hr) cc (List.mem_range.mpr hc) y hcell
    refine ⟨rfl, ?_⟩
    rcases hdisj with ⟨h1, h2⟩ | ⟨h1, h2⟩
    · exact Or.inl ⟨h1, hs2, h2⟩
    · exact Or.inr ⟨h1, hs1, h2⟩
  · rintro ⟨hy, hncp⟩
    refine ⟨hy, ?_⟩
    intro r hr cc hc num hcell hhit
    rcases hhit with ⟨hynum, hdisj⟩
    apply hncp
    refine ⟨r, cc, List.mem_range.mp hr, List.mem_range.mp hc, ?_, ?_⟩
    · rw [hcell, hynum]
    · rcases hdisj with ⟨h1, _, h2⟩ | ⟨h1, _, h2⟩
      · rw [hynum]
        exact Or.inl ⟨h1, h2⟩
      · rw [hynum]
        exact Or.inr ⟨h1, h2⟩

/-- C8: the heuristic preprocessing computes, per region, the remaining
values `{1..region_size}` minus the values already used by its clued
cells; it seeds every empty cell's candidate set from its region's
remaining values; and the clue-pruning loops then remove, from each
still-empty cell's set, exactly the values `v` for which some clue cell
with value `v` lies in the same row at column distance at most `v` or in
the same column at row distance at most `v`.  Stated for any empty square
`s` lying in exactly one region (regions partition the grid) on a run
whose preprocessing completes without a Python exception. -/
theorem C8_preprocessing_candidates (p : Puzzle) (s : Sq) (reg : List Sq)
    (poss : Finset Nat) (d0 d1 : CDict)
    (hs1 : s.1 < p.height) (hs2 : s.2 < p.width)
    (hmem : reg ∈ p.regions) (hsreg : s ∈ reg)
    (huniq : ∀ reg2 ∈ p.regions, s ∈ reg2 → reg2 = reg)
    (hempty : p.get s = none)
    (hposs : regionPossible p reg = some poss)
    (hseed : seedDict p = some d0)
    (hprune : pruneClues p d0 = some d1) :
    (∀ x, x ∈ poss ↔ (1 ≤ x ∧ x ≤ reg.length ∧ ¬∃ s2 ∈ reg, p.get s2 = some x)) ∧
    ∃ c, dictFind s d1 = some (.cand c) ∧
      ∀ x, (x ∈ c ↔ x ∈ poss ∧ ¬CluePrunes p s x) := by
  refine ⟨regionPossible_mem p reg poss hposs, ?_⟩
  have hd0 : dictFind s d0 = some (.cand poss) :=
    seedDict_find p s reg poss d0 hempty hsreg hmem huniq hposs hseed
  exact pruneClues_find p d0 d1 s poss hprune hd0 hs1 hs2

theorem C8_preprocessing_candidates_witness :
    (∀ x, x ∈ ((regionPossible Pseed [(0, 0), (0, 1), (0, 2)]).getD ∅) ↔
      (1 ≤ x ∧ x ≤ ([(0, 0), (0, 1), (0, 2)] : List Sq).length ∧
        ¬∃ s2 ∈ ([(0, 0), (0, 1), (0, 2)] : List Sq), Pseed.get s2 = some x)) ∧
    ∃ c, dictFind (0, 0)
        ((pruneClues Pseed ((seedDict Pseed).getD [])).getD []) = some (.cand c) ∧
      ∀ x, (x ∈ c ↔
        x ∈ ((regionPossible Pseed [(0, 0), (0, 1), (0, 2)]).getD ∅) ∧
          ¬CluePrunes Pseed (0, 0) x) :=
  C8_preprocessing_candidates Pseed (0, 0) [(0, 0), (0, 1), (0, 2)]
    ((regionPossible Pseed [(0, 0), (0, 1), (0, 2)]).getD ∅)
    ((seedDict Pseed).getD [])
    ((pruneClues Pseed ((seedDict Pseed).getD [])).getD [])
    (by decide) (by decide) (by decide) (by decide) (by decide) (by decide)
    (by rfl) (by rfl) (by rfl)
